import Mathlib

/-!
Verification of the Semantic Version & Conventional-Commit engine of the
CS-DeveloperTools repository (scripts `git-release.py` and
`git-changelog.py`).

Strings are modelled as `List Char`.  The Python regular expressions used by
the scripts are compiled by hand into deterministic scanners; every greedy
class in those patterns operates on a character class disjoint from the
character that must follow it, so the backtracking regex engine and the
deterministic scanner agree (this is argued case by case in the comments of
each definition).  Character classes are modelled at ASCII level, matching
the ASCII semantics of the patterns in the source.  A Python `re` `$` anchor
also matches just before one trailing newline; the scanners model this
explicitly.  `sys.exit(1)` failure paths are modelled as `Option.none`.
-/

set_option synthInstance.maxSize 512

/-- Strings are lists of characters throughout. -/
abbrev Str := List Char

/-- ASCII decimal digit, the model of the pattern class `\d`. -/
def isDigitC (c : Char) : Bool := 48 ≤ c.toNat && c.toNat ≤ 57

/-- ASCII letter, the model of the pattern class `[a-zA-Z]`. -/
def isAlphaC (c : Char) : Bool :=
  (97 ≤ c.toNat && c.toNat ≤ 122) || (65 ≤ c.toNat && c.toNat ≤ 90)

/-- ASCII word character, the model of the pattern class `\w`. -/
def isWordC (c : Char) : Bool := isAlphaC c || isDigitC c || c == '_'

/-- ASCII whitespace, the model of the pattern class `\s`. -/
def isSpaceC (c : Char) : Bool :=
  c == ' ' || c == '\t' || c == '\n' || c == '\r' || c == '\x0b' || c == '\x0c'

/-- Numeric value of a digit character. -/
def charToDigit (c : Char) : Nat := c.toNat - 48

/-- Value of a run of decimal digit characters (model of Python `int`). -/
def strToNat (cs : Str) : Nat := cs.foldl (fun a c => 10 * a + charToDigit c) 0

/-- Fuel-based digit rendering (structural recursion, so that concrete
values compute inside the kernel). -/
def natToCharsCore (fuel : Nat) (n : Nat) : Str :=
  match fuel with
  | 0 => []
  | f + 1 => if n = 0 then [] else natToCharsCore f (n / 10) ++ [Nat.digitChar (n % 10)]

/-- Decimal rendering of a natural number (model of Python `str`/f-string
formatting of an `int`). -/
def natToChars (n : Nat) : Str :=
  if n = 0 then ['0'] else natToCharsCore n n

theorem natToCharsCore_eq_digits (fuel n : Nat) (h : n ≤ fuel) :
    natToCharsCore fuel n = (Nat.digits 10 n).reverse.map Nat.digitChar := by
  induction fuel generalizing n with
  | zero =>
    have : n = 0 := by omega
    subst this
    simp [natToCharsCore]
  | succ f ih =>
    by_cases hn : n = 0
    · subst hn
      simp [natToCharsCore]
    · have hdiv : n / 10 ≤ f := by
        have := Nat.div_lt_self (Nat.pos_of_ne_zero hn) (by norm_num : (1 : Nat) < 10)
        omega
      rw [natToCharsCore, if_neg hn, ih _ hdiv,
        Nat.digits_def' (by norm_num : (1 : Nat) < 10) (Nat.pos_of_ne_zero hn)]
      simp

theorem natToChars_eq (n : Nat) :
    natToChars n = if n = 0 then ['0'] else (Nat.digits 10 n).reverse.map Nat.digitChar := by
  unfold natToChars
  split
  · rfl
  · exact natToCharsCore_eq_digits n n le_rfl

theorem digitChar_isDigitC {d : Nat} (h : d < 10) :
    isDigitC (Nat.digitChar d) = true := by
  interval_cases d <;> decide

theorem charToDigit_digitChar {d : Nat} (h : d < 10) :
    charToDigit (Nat.digitChar d) = d := by
  interval_cases d <;> decide

theorem natToChars_ne_nil (n : Nat) : natToChars n ≠ [] := by
  rw [natToChars_eq]
  split
  · simp
  · have h10 : (2 : Nat) ≤ 10 := by norm_num
    have := Nat.digits_ne_nil_iff_ne_zero (b := 10) (n := n)
    intro hc
    simp only [List.map_eq_nil_iff, List.reverse_eq_nil_iff] at hc
    exact (this.mpr (by omega)) hc

theorem natToChars_all_digit (n : Nat) : ∀ c ∈ natToChars n, isDigitC c = true := by
  intro c hc
  rw [natToChars_eq] at hc
  split at hc
  · simp at hc; subst hc; decide
  · simp only [List.mem_map, List.mem_reverse] at hc
    obtain ⟨d, hd, rfl⟩ := hc
    exact digitChar_isDigitC (Nat.digits_lt_base (by norm_num) hd)

theorem foldl_digits_eq (L : List Nat) (h : ∀ d ∈ L, d < 10) (a : Nat) :
    L.foldl (fun a d => 10 * a + charToDigit (Nat.digitChar d)) a =
      L.foldl (fun a d => 10 * a + d) a := by
  induction L generalizing a with
  | nil => rfl
  | cons d L ih =>
    simp only [List.foldl_cons]
    rw [charToDigit_digitChar (h d (by simp))]
    exact ih (fun x hx => h x (by simp [hx])) _

theorem foldl_reverse_ofDigits (L : List Nat) :
    L.reverse.foldl (fun a d => 10 * a + d) 0 = Nat.ofDigits 10 L := by
  induction L with
  | nil => simp [Nat.ofDigits]
  | cons d L ih =>
    simp only [List.reverse_cons, List.foldl_append, List.foldl_cons, List.foldl_nil,
      Nat.ofDigits_cons, ih]
    ring

theorem strToNat_natToChars (n : Nat) : strToNat (natToChars n) = n := by
  rw [natToChars_eq]
  split
  · subst n; decide
  · unfold strToNat
    rw [List.foldl_map]
    rw [foldl_digits_eq _ (fun d hd => Nat.digits_lt_base (by norm_num) (by simpa using hd))]
    rw [foldl_reverse_ofDigits, Nat.ofDigits_digits]

/-! ## Version parsing (`parse_version` in `git-release.py`)

Python source:
```
version = version.lstrip("v")
pattern = r"^(\d+)\.(\d+)\.(\d+)(?:-([a-zA-Z]+)\.?(\d+)?)?$"
match = re.match(pattern, version)
if not match: sys.exit(1)
```
`lstrip("v")` removes every leading `'v'`.  In the pattern every greedy
piece (`\d+`, `[a-zA-Z]+`) scans a character class disjoint from the
character required next, so backtracking never shortens a run and the
match is deterministic.  No token of the pattern can consume `'\n'`, and
the `$` anchor tolerates exactly one trailing newline, so a match exists
for `s` iff the strict-end scanner succeeds on `s` with one trailing
newline removed. -/

/-- Drop all leading `'v'` characters (Python `str.lstrip("v")`). -/
def stripV (cs : Str) : Str := cs.dropWhile (fun c => c == 'v')

/-- Remove one trailing `'\n'` when present (the tolerance of the `$`
anchor of Python `re`). -/
def stripNl1 (cs : Str) : Str :=
  if cs.getLast? = some '\n' then cs.dropLast else cs

/-- Deterministic scanner for the optional prerelease suffix
`(?:-([a-zA-Z]+)\.?(\d+)?)?` followed by the end of the input: the dot and
the digit run are each independently optional.  Returns
`(pre_type, pre_num)`. -/
def parsePre (r : Str) : Option (Option Str × Option Nat) :=
  match r with
  | [] => some (none, none)
  | c :: r6 =>
    if c = '-' then
      let L := r6.takeWhile isAlphaC
      let r7 := r6.dropWhile isAlphaC
      if L = [] then none
      else
        match r7 with
        | [] => some (some L, none)
        | c2 :: t =>
          if c2 = '.' then
            if t = [] then some (some L, none)
            else if t.all isDigitC then some (some L, some (strToNat t))
            else none
          else if (c2 :: t).all isDigitC then some (some L, some (strToNat (c2 :: t)))
          else none
    else none

/-- Scan one `(\d+)` group: a non-empty run of digits, returned as its
numeric value (the script converts each group with `int`). -/
def scanNum (cs : Str) : Option (Nat × Str) :=
  let d := cs.takeWhile isDigitC
  if d = [] then none else some (strToNat d, cs.dropWhile isDigitC)

/-- Deterministic scanner for `^(\d+)\.(\d+)\.(\d+)` followed by the
prerelease suffix, on input already stripped of leading `'v'`s and of one
trailing newline. -/
def parseVerCore (cs : Str) : Option (Nat × Nat × Nat × Option Str × Option Nat) :=
  match scanNum cs with
  | none => none
  | some (major, r1) =>
    match r1 with
    | [] => none
    | c1 :: r2 =>
      if c1 = '.' then
        match scanNum r2 with
        | none => none
        | some (minor, r3) =>
          match r3 with
          | [] => none
          | c2 :: r4 =>
            if c2 = '.' then
              match scanNum r4 with
              | none => none
              | some (patch, r5) =>
                match parsePre r5 with
                | some (pt, pn) => some (major, minor, patch, pt, pn)
                | none => none
            else none
      else none

/-- `parse_version` of `git-release.py`; `none` models the
`Invalid version format` + `sys.exit(1)` path. -/
def parse_version (version : Str) : Option (Nat × Nat × Nat × Option Str × Option Nat) :=
  parseVerCore (stripNl1 (stripV version))

/-- Truthiness of an optional string (Python `if pre_type:`). -/
def truthy (o : Option Str) : Bool :=
  match o with
  | none => false
  | some t => !(t = [])

/-- `format_version` of `git-release.py`.  All call sites of the script
pass `prefix` explicitly, so the Python defaults are not modelled. -/
def format_version (major minor patch : Nat) (pre_type : Option Str)
    (pre_num : Option Nat) (pfx : Str) : Str :=
  pfx ++ natToChars major ++ '.' :: natToChars minor ++ '.' :: natToChars patch ++
    (if truthy pre_type then
      '-' :: (pre_type.getD []) ++
        (match pre_num with
         | some n => '.' :: natToChars n
         | none => [])
     else [])

/-- The `BumpType` enumeration of `git-release.py`. -/
inductive BumpType where
  | major | minor | patch | premajor | preminor | prepatch | prerelease
deriving DecidableEq, Repr

/-- The prefix recovered by `bump_version`:
`"v" if current.startswith("v") else ""`. -/
def pfxOf (current : Str) : Str :=
  if current.head? = some 'v' then ['v'] else []

/-- `bump_version` of `git-release.py`; `none` models the failure exit of
the embedded `parse_version` call. -/
def bump_version (current : Str) (bump_type : BumpType) (preid : Str) : Option Str :=
  match parse_version current with
  | none => none
  | some (major, minor, patch, pre_type, pre_num) =>
    let pfx := pfxOf current
    match bump_type with
    | .major => some (format_version (major + 1) 0 0 none none pfx)
    | .minor => some (format_version major (minor + 1) 0 none none pfx)
    | .patch =>
      if truthy pre_type then
        some (format_version major minor patch none none pfx)
      else
        some (format_version major minor (patch + 1) none none pfx)
    | .premajor => some (format_version (major + 1) 0 0 (some preid) (some 0) pfx)
    | .preminor => some (format_version major (minor + 1) 0 (some preid) (some 0) pfx)
    | .prepatch => some (format_version major minor (patch + 1) (some preid) (some 0) pfx)
    | .prerelease =>
      if truthy pre_type then
        some (format_version major minor patch pre_type (some (pre_num.getD 0 + 1)) pfx)
      else
        some (format_version major minor (patch + 1) (some preid) (some 0) pfx)

/-! ## Commit subject parsing (`parse_commit` in `git-changelog.py`)

Python source:
```
pattern = r"^(\w+)(?:\(([^)]+)\))?(!)?\s*:\s*(.+)$"
match = re.match(pattern, subject)
if match: return (group(1).lower(), group(2) or "", group(4), bool(group(3)))
return "other", "", subject, False
```
Again the pattern is deterministic: `\w+` scans word characters and every
alternative continuation (`(`, `!`, whitespace, `:`) is a non-word
character, `[^)]+` stops at the first `)`, and the `\s*` runs are followed
by non-whitespace requirements.  Only the final `\s*(.+)$` needs
backtracking: when everything after the colon is whitespace, the engine
gives back one whitespace character to `.+` (so `"feat:   "` yields the
one-character message `" "`), and `$` tolerates one trailing newline. -/

/-- The text matched by `\s*(.+)$` (with `.` excluding `'\n'` and `$`
accepting the end of input or a position just before one trailing
newline), resolved by the backtracking order of the engine: maximal
whitespace run first, then the longest possible message. -/
def matchMsg (u : Str) : Option Str :=
  let s := u.dropWhile isSpaceC
  if s ≠ [] then
    let m := if s.getLast? = some '\n' then s.dropLast else s
    if m.all (fun c => !(c == '\n')) then some m else none
  else
    match u.getLast? with
    | none => none
    | some c =>
      if c ≠ '\n' then some [c]
      else
        match u.dropLast.getLast? with
        | some c2 => if c2 ≠ '\n' then some [c2] else none
        | none => none

/-- Scan `^(\w+)`: the leading run of word characters, which must be
non-empty. -/
def scanType (s : Str) : Option (Str × Str) :=
  let t := s.takeWhile isWordC
  if t = [] then none else some (t, s.dropWhile isWordC)

/-- Scan the optional scope group `(?:\(([^)]+)\))?`.  When the input
starts with `'('` but the group cannot match (empty scope or no closing
parenthesis), the whole pattern fails, because no later token can consume
the `'('`. -/
def scanScope (r : Str) : Option (Str × Str) :=
  match r with
  | [] => some ([], [])
  | c :: r2 =>
    if c = '(' then
      let sc := r2.takeWhile (fun x => !(x == ')'))
      match r2.dropWhile (fun x => !(x == ')')) with
      | [] => none
      | c2 :: r3 => if c2 = ')' then (if sc = [] then none else some (sc, r3)) else none
    else some ([], c :: r2)

/-- Scan the optional breaking marker `(!)?`. -/
def scanBang (r : Str) : Bool × Str :=
  match r with
  | [] => (false, [])
  | c :: r2 => if c = '!' then (true, r2) else (false, c :: r2)

/-- Scan `\s*:`. -/
def scanColon (r : Str) : Option Str :=
  match r.dropWhile isSpaceC with
  | [] => none
  | c :: r2 => if c = ':' then some r2 else none

/-- The deterministic compilation of the whole commit-subject pattern.
Returns `(raw type, scope, breaking, message)` on a match. -/
def parseCommitCore (s : Str) : Option (Str × Str × Bool × Str) :=
  match scanType s with
  | none => none
  | some (ty, r1) =>
    match scanScope r1 with
    | none => none
    | some (sc, r2) =>
      let br := scanBang r2
      match scanColon br.2 with
      | none => none
      | some r5 =>
        match matchMsg r5 with
        | none => none
        | some m => some (ty, sc, br.1, m)

/-- `parse_commit` of `git-changelog.py`: total, with the `"other"`
fallback.  Returns `(type, scope, message, is_breaking)`. -/
def parse_commit (subject : Str) : Str × Str × Str × Bool :=
  match parseCommitCore subject with
  | some (ty, sc, bang, m) => (ty.map Char.toLower, sc, m, bang)
  | none => ("other".data, [], subject, false)

/-! ## Release-bump suggestion (`analyze_commits` in `git-release.py`) -/

/-- An input commit record: `{"hash": ..., "subject": ...}`. -/
structure RawCommit where
  hash : Str
  subject : Str
deriving DecidableEq, Repr

/-- Does `sub` occur as a contiguous substring (Python `in`)? -/
def containsSub (pat : Str) : Str → Bool
  | [] => pat.isPrefixOf []
  | c :: t => pat.isPrefixOf (c :: t) || containsSub pat t

/-- The breaking test of one loop iteration of `analyze_commits`:
`"!" in subject.split(":")[0] or "breaking" in subject`, on the
lower-cased subject. -/
def breakingSubject (c : RawCommit) : Bool :=
  let subj := c.subject.map Char.toLower
  (subj.takeWhile (fun c => !(c == ':'))).contains '!' || containsSub "breaking".data subj

/-- The feature test of one loop iteration of `analyze_commits`:
`subject.startswith("feat")`, on the lower-cased subject. -/
def featSubject (c : RawCommit) : Bool :=
  "feat".data.isPrefixOf (c.subject.map Char.toLower)

/-- `analyze_commits` of `git-release.py`: the loop accumulates the two
flags, then the priority decision is taken. -/
def analyze_commits (commits : List RawCommit) : BumpType :=
  let flags := commits.foldl
    (fun (fl : Bool × Bool) c => (fl.1 || breakingSubject c, fl.2 || featSubject c))
    (false, false)
  if flags.1 then .major else if flags.2 then .minor else .patch

/-! ## Grouping and rendering (`git-changelog.py`) -/

/-- A classified commit: the original record plus the fields that
`group_commits` attaches (`type`, `scope`, `message`, `breaking`). -/
structure CCommit where
  hash : Str
  subject : Str
  ctype : Str
  scope : Str
  message : Str
  breaking : Bool
deriving DecidableEq, Repr

/-- Classification of one record (the body of the `group_commits` loop). -/
def classifyRaw (c : RawCommit) : CCommit :=
  let p := parse_commit c.subject
  ⟨c.hash, c.subject, p.1, p.2.1, p.2.2.1, p.2.2.2⟩

/-- The `COMMIT_TYPES` table, in its source order: type, title, icon. -/
def COMMIT_TYPES : List (Str × Str × Str) :=
  [("feat".data, "Features".data, "✨".data),
   ("fix".data, "Bug Fixes".data, "🐛".data),
   ("docs".data, "Documentation".data, "📚".data),
   ("style".data, "Styles".data, "💎".data),
   ("refactor".data, "Code Refactoring".data, "♻️".data),
   ("perf".data, "Performance".data, "⚡".data),
   ("test".data, "Tests".data, "🧪".data),
   ("build".data, "Build System".data, "📦".data),
   ("ci".data, "CI/CD".data, "🔧".data),
   ("chore".data, "Chores".data, "🔨".data),
   ("revert".data, "Reverts".data, "⏪".data),
   ("security".data, "Security".data, "🔒".data)]

/-- The bucket a classified commit is appended to: its own type when the
type is a `COMMIT_TYPES` key, otherwise `"other"`. -/
def bucketKey (t : Str) : Str :=
  if (COMMIT_TYPES.map (fun e => e.1)).contains t then t else "other".data

/-- Append a commit to the bucket of key `k` of an association list,
creating the bucket at the end when the key is new — the behaviour of
`defaultdict(list)` together with dict insertion order. -/
def insertBucket (g : List (Str × List CCommit)) (k : Str) (c : CCommit) :
    List (Str × List CCommit) :=
  match g with
  | [] => [(k, [c])]
  | (k', l) :: rest =>
    if k' = k then (k', l ++ [c]) :: rest else (k', l) :: insertBucket rest k c

/-- `group_commits` of `git-changelog.py`: the grouped dict, modelled as an
association list in key-insertion order. -/
def group_commits (commits : List RawCommit) : List (Str × List CCommit) :=
  commits.foldl (fun g c =>
    let cc := classifyRaw c
    insertBucket g (bucketKey cc.ctype) cc) []

/-- First-match association lookup (dict `[]` access / `in` test). -/
def lookupB (g : List (Str × List CCommit)) (k : Str) : Option (List CCommit) :=
  match g with
  | [] => none
  | (k', l) :: rest => if k' = k then some l else lookupB rest k

/-- The breaking-changes list materialized by `format_markdown`: it walks
`grouped_commits.values()` (bucket order), not the original commit order. -/
def breakingList (g : List (Str × List CCommit)) : List CCommit :=
  (g.map (fun p => p.2.filter (fun c => c.breaking))).flatten

/-- One entry line: `- **scope:** message (hash)`, the scope part only when
the scope is non-empty. -/
def entryLine (c : CCommit) : Str :=
  "- ".data ++
    (if c.scope ≠ [] then "**".data ++ c.scope ++ ":** ".data else []) ++
    c.message ++ " (".data ++ c.hash ++ [')']

/-- The version/date header line of `format_markdown`. -/
def headerLine (version date : Str) (compareUrl : Option Str) : Str :=
  match compareUrl with
  | some url =>
    "## ".data ++ '[' :: version ++ "](".data ++ url ++ ") (".data ++ date ++ [')']
  | none => "## ".data ++ version ++ " (".data ++ date ++ [')']

/-- The lines of one known-type section: emitted only when the bucket
exists and is non-empty. -/
def typeSection (g : List (Str × List CCommit)) (e : Str × Str × Str) : List Str :=
  match lookupB g e.1 with
  | some l =>
    if l ≠ [] then
      ("### ".data ++ e.2.2 ++ ' ' :: e.2.1) :: [] :: l.map entryLine ++ [[]]
    else []
  | none => []

/-- The lines of the `Other Changes` section, rendered from raw subjects. -/
def otherSection (g : List (Str × List CCommit)) : List Str :=
  match lookupB g "other".data with
  | some l =>
    if l ≠ [] then
      "### Other Changes".data :: [] ::
        l.map (fun c => "- ".data ++ c.subject ++ " (".data ++ c.hash ++ [')']) ++ [[]]
    else []
  | none => []

/-- The lines of the breaking-changes section. -/
def breakingSection (g : List (Str × List CCommit)) : List Str :=
  let breaking := breakingList g
  if breaking ≠ [] then
    "### ⚠️ BREAKING CHANGES".data :: [] :: breaking.map entryLine ++ [[]]
  else []

/-- `format_markdown` of `git-changelog.py`, as its list of output lines
(the script joins them with newlines). -/
def format_markdown (version date : Str) (g : List (Str × List CCommit))
    (compareUrl : Option Str) : List Str :=
  headerLine version date compareUrl :: [] ::
    breakingSection g ++ (COMMIT_TYPES.map (typeSection g)).flatten ++ otherSection g

/-! ## Scanner infrastructure: runs followed by a non-matching character -/

theorem takeWhile_run (P : Char → Bool) (a b : Str) (ha : ∀ c ∈ a, P c = true)
    (hb : ∀ c, b.head? = some c → P c = false) :
    (a ++ b).takeWhile P = a := by
  rw [List.takeWhile_append_of_pos ha]
  cases b with
  | nil => simp
  | cons c t =>
    have : P c = false := hb c rfl
    simp [List.takeWhile_cons, this]

theorem dropWhile_run (P : Char → Bool) (a b : Str) (ha : ∀ c ∈ a, P c = true)
    (hb : ∀ c, b.head? = some c → P c = false) :
    (a ++ b).dropWhile P = b := by
  rw [List.dropWhile_append_of_pos ha]
  cases b with
  | nil => simp
  | cons c t =>
    have : P c = false := hb c rfl
    simp [List.dropWhile_cons, this]

theorem stripNl1_of_no_nl (cs : Str) (h : ∀ c ∈ cs, c ≠ '\n') : stripNl1 cs = cs := by
  unfold stripNl1
  split
  · rename_i hl
    exact absurd rfl (h '\n' (List.mem_of_getLast?_eq_some hl))
  · rfl

/-! Character-class facts. -/

theorem digit_bounds {c : Char} (h : isDigitC c = true) : 48 ≤ c.toNat ∧ c.toNat ≤ 57 := by
  simpa [isDigitC, Bool.and_eq_true, decide_eq_true_eq] using h

theorem alpha_bounds {c : Char} (h : isAlphaC c = true) :
    (97 ≤ c.toNat ∧ c.toNat ≤ 122) ∨ (65 ≤ c.toNat ∧ c.toNat ≤ 90) := by
  simpa [isAlphaC, Bool.or_eq_true, Bool.and_eq_true, decide_eq_true_eq] using h

theorem digit_ne {c d : Char} (h : isDigitC c = true)
    (hd : d.toNat < 48 ∨ 57 < d.toNat) : c ≠ d := by
  intro rfl1
  have := digit_bounds h
  subst rfl1
  omega

theorem alpha_ne {c d : Char} (h : isAlphaC c = true)
    (hd : d.toNat < 65 ∨ (90 < d.toNat ∧ d.toNat < 97) ∨ 122 < d.toNat) : c ≠ d := by
  intro rfl1
  have := alpha_bounds h
  subst rfl1
  omega

theorem digit_not_alpha {c : Char} (h : isDigitC c = true) : isAlphaC c = false := by
  have := digit_bounds h
  by_contra hc
  have h2 := alpha_bounds (by simpa using hc)
  omega

theorem digit_beq_false {c d : Char} (h : isDigitC c = true)
    (hd : d.toNat < 48 ∨ 57 < d.toNat) : (c == d) = false := by
  simpa using digit_ne h hd

theorem space_cases {c : Char} (h : isSpaceC c = true) :
    c = ' ' ∨ c = '\t' ∨ c = '\n' ∨ c = '\r' ∨ c = '\x0b' ∨ c = '\x0c' := by
  have h2 := h
  simp only [isSpaceC, Bool.or_eq_true, beq_iff_eq] at h2
  tauto

theorem space_not_word {c : Char} (h : isSpaceC c = true) : isWordC c = false := by
  rcases space_cases h with rfl | rfl | rfl | rfl | rfl | rfl <;> decide

theorem space_ne_colon {c : Char} (h : isSpaceC c = true) : c ≠ ':' := by
  rcases space_cases h with rfl | rfl | rfl | rfl | rfl | rfl <;> decide

theorem digit_ne_nl {c : Char} (h : isDigitC c = true) : c ≠ '\n' :=
  digit_ne h (by decide)

theorem alpha_ne_nl {c : Char} (h : isAlphaC c = true) : c ≠ '\n' :=
  alpha_ne h (by decide)

theorem digit_ne_v {c : Char} (h : isDigitC c = true) : (c == 'v') = false :=
  digit_beq_false h (by decide)

/-! ## Soundness / completeness of the version scanners -/

theorem scanNum_complete (d b : Str) (hd : d ≠ []) (hall : ∀ c ∈ d, isDigitC c = true)
    (hb : ∀ c, b.head? = some c → isDigitC c = false) :
    scanNum (d ++ b) = some (strToNat d, b) := by
  unfold scanNum
  rw [takeWhile_run _ _ _ hall hb, dropWhile_run _ _ _ hall hb]
  simp [hd]

theorem scanNum_sound {cs : Str} {n : Nat} {r : Str} (h : scanNum cs = some (n, r)) :
    ∃ d, cs = d ++ r ∧ d ≠ [] ∧ (∀ c ∈ d, isDigitC c = true) ∧ n = strToNat d ∧
      (∀ c, r.head? = some c → isDigitC c = false) := by
  by_cases hne : cs.takeWhile isDigitC = []
  · exfalso
    unfold scanNum at h
    simp [hne] at h
  · unfold scanNum at h
    simp only [if_neg hne] at h
    obtain ⟨h1, h2⟩ := Prod.mk.injEq .. ▸ Option.some.inj h
    refine ⟨cs.takeWhile isDigitC, ?_, hne, ?_, h1.symm, ?_⟩
    · rw [← h2, List.takeWhile_append_dropWhile]
    · intro c hc
      exact List.mem_takeWhile_imp hc
    · subst h2
      intro c hc
      have := List.head?_dropWhile_not isDigitC cs
      rw [hc] at this
      simpa using this

/-- `parsePre` accepts the empty suffix. -/
theorem parsePre_nil : parsePre [] = some (none, none) := rfl

/-- Unfolding of `parsePre` on a `'-'`-headed suffix. -/
theorem parsePre_dash (r6 : Str) :
    parsePre ('-' :: r6) =
      (if r6.takeWhile isAlphaC = [] then none
       else
         match r6.dropWhile isAlphaC with
         | [] => some (some (r6.takeWhile isAlphaC), none)
         | c2 :: t =>
           if c2 = '.' then
             if t = [] then some (some (r6.takeWhile isAlphaC), none)
             else if t.all isDigitC then
               some (some (r6.takeWhile isAlphaC), some (strToNat t))
             else none
           else if (c2 :: t).all isDigitC then
             some (some (r6.takeWhile isAlphaC), some (strToNat (c2 :: t)))
           else none) := rfl

theorem parsePre_complete_bare (L : Str) (hL : L ≠ [])
    (hall : ∀ c ∈ L, isAlphaC c = true) :
    parsePre ('-' :: L) = some (some L, none) := by
  have h0 : L = L ++ [] := by simp
  rw [parsePre_dash, h0,
    takeWhile_run _ _ _ hall (by intro c hc; simp at hc),
    dropWhile_run _ _ _ hall (by intro c hc; simp at hc)]
  simp [hL]

theorem parsePre_complete_dot (L : Str) (hL : L ≠ [])
    (hall : ∀ c ∈ L, isAlphaC c = true) :
    parsePre ('-' :: (L ++ ['.'])) = some (some L, none) := by
  have hb : ∀ c, (['.'] : Str).head? = some c → isAlphaC c = false := by
    intro c hc; simp at hc; subst hc; decide
  rw [parsePre_dash, takeWhile_run _ _ _ hall hb, dropWhile_run _ _ _ hall hb]
  simp [hL]

theorem parsePre_complete_dotnum (L ds : Str) (hL : L ≠ [])
    (hall : ∀ c ∈ L, isAlphaC c = true) (hds : ds ≠ [])
    (hdsall : ∀ c ∈ ds, isDigitC c = true) :
    parsePre ('-' :: (L ++ '.' :: ds)) = some (some L, some (strToNat ds)) := by
  have hb : ∀ c, ('.' :: ds).head? = some c → isAlphaC c = false := by
    intro c hc; simp at hc; subst hc; decide
  rw [parsePre_dash, takeWhile_run _ _ _ hall hb, dropWhile_run _ _ _ hall hb]
  have hall2 : ds.all isDigitC = true := by
    rw [List.all_eq_true]; exact hdsall
  simp [hL, hds, hall2]

theorem parsePre_complete_num (L ds : Str) (hL : L ≠ [])
    (hall : ∀ c ∈ L, isAlphaC c = true) (hds : ds ≠ [])
    (hdsall : ∀ c ∈ ds, isDigitC c = true) :
    parsePre ('-' :: (L ++ ds)) = some (some L, some (strToNat ds)) := by
  have hb : ∀ c, ds.head? = some c → isAlphaC c = false := by
    intro c hc
    cases ds with
    | nil => simp at hc
    | cons c0 t =>
      simp at hc; subst hc
      exact digit_not_alpha (hdsall c0 (by simp))
  rw [parsePre_dash, takeWhile_run _ _ _ hall hb, dropWhile_run _ _ _ hall hb]
  cases ds with
  | nil => exact absurd rfl hds
  | cons c0 t =>
    have hc0 : isDigitC c0 = true := hdsall c0 (by simp)
    have hne : ¬ (c0 = '.') := digit_ne hc0 (by decide)
    have hall2 : (c0 :: t).all isDigitC = true := by
      rw [List.all_eq_true]; exact hdsall
    simp [hL, hne, hall2]

theorem parseVerCore_complete (M m p : Nat) (sfx : Str) (pt : Option Str)
    (pn : Option Nat) (hs : parsePre sfx = some (pt, pn))
    (hhead : ∀ c, sfx.head? = some c → isDigitC c = false) :
    parseVerCore (natToChars M ++ '.' :: (natToChars m ++ '.' :: (natToChars p ++ sfx))) =
      some (M, m, p, pt, pn) := by
  have hdot : ∀ (x : Str), ∀ c, ('.' :: x : Str).head? = some c → isDigitC c = false := by
    intro x c hc; simp at hc; subst hc; decide
  unfold parseVerCore
  rw [scanNum_complete _ _ (natToChars_ne_nil M) (natToChars_all_digit M) (hdot _),
    strToNat_natToChars]
  dsimp only
  rw [if_pos rfl,
    scanNum_complete _ _ (natToChars_ne_nil m) (natToChars_all_digit m) (hdot _),
    strToNat_natToChars]
  dsimp only
  rw [if_pos rfl,
    scanNum_complete _ _ (natToChars_ne_nil p) (natToChars_all_digit p) hhead,
    strToNat_natToChars]
  dsimp only
  rw [hs]

/-- The prerelease suffix appended by `format_version`. -/
def preSfx (pt : Option Str) (pn : Option Nat) : Str :=
  if truthy pt then
    '-' :: (pt.getD []) ++
      (match pn with
       | some n => '.' :: natToChars n
       | none => [])
  else []

theorem format_version_eq (M m p : Nat) (pt : Option Str) (pn : Option Nat) (pfx : Str) :
    format_version M m p pt pn pfx =
      pfx ++ (natToChars M ++ '.' :: (natToChars m ++ '.' :: (natToChars p ++ preSfx pt pn))) := by
  simp [format_version, preSfx, List.append_assoc]

theorem preSfx_parse {pt : Option Str} {pn : Option Nat}
    (hpre : (pt = none ∧ pn = none) ∨
      ∃ t, pt = some t ∧ t ≠ [] ∧ (∀ c ∈ t, isAlphaC c = true)) :
    parsePre (preSfx pt pn) = some (pt, pn) := by
  rcases hpre with ⟨rfl, rfl⟩ | ⟨t, rfl, ht0, hta⟩
  · rfl
  · have htr : truthy (some t) = true := by simp [truthy, ht0]
    cases pn with
    | none =>
      simp only [preSfx, htr, if_true, Option.getD_some, List.append_nil]
      exact parsePre_complete_bare t ht0 hta
    | some n =>
      simp only [preSfx, htr, if_true, Option.getD_some, List.cons_append]
      rw [parsePre_complete_dotnum t (natToChars n) ht0 hta (natToChars_ne_nil n)
        (natToChars_all_digit n), strToNat_natToChars]

theorem preSfx_head_not_digit {pt : Option Str} {pn : Option Nat} :
    ∀ c, (preSfx pt pn).head? = some c → isDigitC c = false := by
  intro c hc
  unfold preSfx at hc
  split at hc
  · simp only [List.cons_append, List.head?_cons, Option.some.injEq] at hc
    subst hc; decide
  · simp at hc

theorem preSfx_no_nl {pt : Option Str} {pn : Option Nat}
    (hpre : (pt = none ∧ pn = none) ∨
      ∃ t, pt = some t ∧ t ≠ [] ∧ (∀ c ∈ t, isAlphaC c = true)) :
    ∀ c ∈ preSfx pt pn, c ≠ '\n' := by
  rcases hpre with ⟨rfl, rfl⟩ | ⟨t, rfl, ht0, hta⟩
  · intro c hc; simp [preSfx, truthy] at hc
  · intro c hc
    have htr : truthy (some t) = true := by simp [truthy, ht0]
    simp only [preSfx, htr, if_true, Option.getD_some, List.cons_append,
      List.mem_cons, List.mem_append] at hc
    rcases hc with rfl | hc | hc
    · decide
    · exact alpha_ne_nl (hta c hc)
    · cases pn with
      | none => simp at hc
      | some n =>
        simp only [List.mem_cons] at hc
        rcases hc with rfl | hc
        · decide
        · exact digit_ne_nl (natToChars_all_digit n c hc)

/-- The body of a formatted version (everything after the prefix). -/
theorem body_no_nl (M m p : Nat) {pt : Option Str} {pn : Option Nat}
    (hpre : (pt = none ∧ pn = none) ∨
      ∃ t, pt = some t ∧ t ≠ [] ∧ (∀ c ∈ t, isAlphaC c = true)) :
    ∀ c ∈ natToChars M ++ '.' :: (natToChars m ++ '.' :: (natToChars p ++ preSfx pt pn)),
      c ≠ '\n' := by
  intro c hc
  simp only [List.mem_append, List.mem_cons] at hc
  rcases hc with hc | rfl | hc | rfl | hc | hc
  · exact digit_ne_nl (natToChars_all_digit M c hc)
  · decide
  · exact digit_ne_nl (natToChars_all_digit m c hc)
  · decide
  · exact digit_ne_nl (natToChars_all_digit p c hc)
  · exact preSfx_no_nl hpre c hc

/-- Round-trip of `format_version` through `parse_version`, together with
the prefix recovery used by `bump_version`.  The hypotheses state that the
components form a well-formed semantic version: a `""` or `"v"` prefix,
and a prerelease that is absent (in which case no number is carried) or
has a non-empty all-letter identifier. -/
theorem parse_format_roundtrip (M m p : Nat) (pt : Option Str) (pn : Option Nat)
    (pfx : Str) (hpfx : pfx = [] ∨ pfx = ['v'])
    (hpre : (pt = none ∧ pn = none) ∨
      ∃ t, pt = some t ∧ t ≠ [] ∧ (∀ c ∈ t, isAlphaC c = true)) :
    parse_version (format_version M m p pt pn pfx) = some (M, m, p, pt, pn) ∧
      pfxOf (format_version M m p pt pn pfx) = pfx := by
  obtain ⟨c0, t0, hM⟩ := List.exists_cons_of_ne_nil (natToChars_ne_nil M)
  have hc0 : isDigitC c0 = true := by
    apply natToChars_all_digit M
    rw [hM]; simp
  have hbody : natToChars M ++ '.' :: (natToChars m ++ '.' :: (natToChars p ++ preSfx pt pn)) =
      c0 :: (t0 ++ '.' :: (natToChars m ++ '.' :: (natToChars p ++ preSfx pt pn))) := by
    rw [hM]; simp
  have hstrip : stripV (format_version M m p pt pn pfx) =
      natToChars M ++ '.' :: (natToChars m ++ '.' :: (natToChars p ++ preSfx pt pn)) := by
    rw [format_version_eq]
    have hbase : stripV (c0 :: (t0 ++ '.' :: (natToChars m ++ '.' :: (natToChars p ++ preSfx pt pn)))) =
        c0 :: (t0 ++ '.' :: (natToChars m ++ '.' :: (natToChars p ++ preSfx pt pn))) := by
      unfold stripV
      rw [List.dropWhile_cons_of_neg]
      rw [digit_ne_v hc0]
      simp
    rcases hpfx with rfl | rfl
    · rw [List.nil_append, hbody, hbase]
    · show stripV ('v' :: _) = _
      unfold stripV
      rw [List.dropWhile_cons_of_pos (by decide)]
      rw [hbody]
      exact hbase
  constructor
  · unfold parse_version
    rw [hstrip, stripNl1_of_no_nl _ (body_no_nl M m p hpre)]
    exact parseVerCore_complete M m p _ pt pn (preSfx_parse hpre) preSfx_head_not_digit
  · unfold pfxOf
    rw [format_version_eq]
    rcases hpfx with rfl | rfl
    · rw [List.nil_append, hbody]
      rw [if_neg]
      simp only [List.head?_cons, Option.some.injEq]
      exact digit_ne hc0 (by decide)
    · rw [if_pos]
      rfl

/-- Soundness of `parsePre` for the shape of the returned prerelease. -/
theorem parsePre_sound_pt {r : Str} {pt : Option Str} {pn : Option Nat}
    (h : parsePre r = some (pt, pn)) :
    (pt = none ∧ pn = none) ∨
      ∃ t, pt = some t ∧ t ≠ [] ∧ (∀ c ∈ t, isAlphaC c = true) := by
  cases r with
  | nil =>
    left
    have h' : (some (none, none) : Option (Option Str × Option Nat)) = some (pt, pn) := h
    simp only [Option.some.injEq, Prod.mk.injEq] at h'
    exact ⟨h'.1.symm, h'.2.symm⟩
  | cons c r6 =>
    by_cases hc : c = '-'
    · subst hc
      rw [parsePre_dash] at h
      by_cases hL : r6.takeWhile isAlphaC = []
      · rw [if_pos hL] at h
        exact absurd h (by simp)
      · rw [if_neg hL] at h
        right
        refine ⟨r6.takeWhile isAlphaC, ?_, hL, fun c hc2 => List.mem_takeWhile_imp hc2⟩
        repeat' split at h
        all_goals
          first
          | exact Option.noConfusion h
          | (injection h with h1
             injection h1 with ha hb
             exact ha.symm)
    · simp only [parsePre, if_neg hc] at h
      exact absurd h (by simp)

/-- The prerelease returned by `parseVerCore` is absent (with no number)
or a non-empty run of letters. -/
theorem parseVerCore_pre_sound {cs : Str} {M m p : Nat} {pt : Option Str}
    {pn : Option Nat} (h : parseVerCore cs = some (M, m, p, pt, pn)) :
    (pt = none ∧ pn = none) ∨
      ∃ t, pt = some t ∧ t ≠ [] ∧ (∀ c ∈ t, isAlphaC c = true) := by
  unfold parseVerCore at h
  repeat' split at h
  all_goals
    first
    | exact Option.noConfusion h
    | (rename_i heq
       injection h with h1
       simp only [Prod.mk.injEq] at h1
       obtain ⟨h2, h3, h4, h5, h6⟩ := h1
       subst h5
       subst h6
       exact parsePre_sound_pt heq)

theorem pfxOf_cases (s : Str) : pfxOf s = [] ∨ pfxOf s = ['v'] := by
  unfold pfxOf
  split
  · exact Or.inr rfl
  · exact Or.inl rfl

/-- Evaluation of `bump_version` under the `prerelease` policy when the
current version carries a prerelease. -/
theorem bump_version_prerelease {s : Str} {M m p : Nat} {t : Str} {pn : Option Nat}
    (preid : Str) (h : parse_version s = some (M, m, p, some t, pn)) (ht : t ≠ []) :
    bump_version s .prerelease preid =
      some (format_version M m p (some t) (some (pn.getD 0 + 1)) (pfxOf s)) := by
  have htr : truthy (some t) = true := by simp [truthy, ht]
  unfold bump_version
  rw [h]
  simp [htr]

/-- C4: a `patch` bump on a version with a prerelease drops the prerelease
and keeps `(major, minor, patch)` unchanged; on a version without one it
increments `patch`.  The result is shown both as the exact emitted string
and through `parse_version`. -/
theorem c4_patch_bump (s preid : Str) (M m p : Nat) (pt : Option Str) (pn : Option Nat)
    (h : parse_version s = some (M, m, p, pt, pn)) :
    (pt ≠ none →
      bump_version s .patch preid = some (format_version M m p none none (pfxOf s)) ∧
      parse_version (format_version M m p none none (pfxOf s)) = some (M, m, p, none, none)) ∧
    (pt = none →
      bump_version s .patch preid = some (format_version M m (p + 1) none none (pfxOf s)) ∧
      parse_version (format_version M m (p + 1) none none (pfxOf s)) =
        some (M, m, p + 1, none, none)) := by
  have hsound := parseVerCore_pre_sound h
  constructor
  · intro hne
    rcases hsound with ⟨rfl, _⟩ | ⟨t, rfl, ht0, _⟩
    · exact absurd rfl hne
    · have htr : truthy (some t) = true := by simp [truthy, ht0]
      refine ⟨?_, (parse_format_roundtrip M m p none none (pfxOf s)
        (pfxOf_cases s) (Or.inl ⟨rfl, rfl⟩)).1⟩
      unfold bump_version
      rw [h]
      simp [htr]
  · intro he
    subst he
    refine ⟨?_, (parse_format_roundtrip M m (p + 1) none none (pfxOf s)
      (pfxOf_cases s) (Or.inl ⟨rfl, rfl⟩)).1⟩
    unfold bump_version
    rw [h]
    simp [truthy]

theorem c4_patch_bump_witness :
    bump_version "v1.2.3-rc.1".data .patch "alpha".data = some "v1.2.3".data ∧
    bump_version "1.2.3".data .patch "alpha".data = some "1.2.4".data := by
  constructor
  · have h := (c4_patch_bump "v1.2.3-rc.1".data "alpha".data 1 2 3 (some "rc".data)
      (some 1) (by decide)).1 (by decide)
    rw [h.1]
    decide
  · have h := (c4_patch_bump "1.2.3".data "alpha".data 1 2 3 none none (by decide)).2 rfl
    rw [h.1]
    decide

/-- C5: `parse_version` is a left inverse of `format_version` on
well-formed semantic versions (prefix `""` or `"v"`, prerelease absent or
with a non-empty all-letter identifier and an optional number), and the
prefix is recovered exactly as `bump_version` recovers it. -/
theorem c5_roundtrip (M m p : Nat) (pt : Option Str) (pn : Option Nat) (pfx : Str)
    (hpfx : pfx = [] ∨ pfx = ['v'])
    (hpre : (pt = none ∧ pn = none) ∨
      ∃ t, pt = some t ∧ t ≠ [] ∧ (∀ c ∈ t, isAlphaC c = true)) :
    parse_version (format_version M m p pt pn pfx) = some (M, m, p, pt, pn) ∧
      pfxOf (format_version M m p pt pn pfx) = pfx :=
  parse_format_roundtrip M m p pt pn pfx hpfx hpre

theorem c5_roundtrip_witness :
    parse_version (format_version 10 2 35 (some "alpha".data) (some 7) ['v']) =
      some (10, 2, 35, some "alpha".data, some 7) ∧
      pfxOf (format_version 10 2 35 (some "alpha".data) (some 7) ['v']) = ['v'] :=
  c5_roundtrip 10 2 35 (some "alpha".data) (some 7) ['v'] (Or.inr rfl)
    (Or.inr ⟨"alpha".data, rfl, by decide, by decide⟩)

/-- C7: from `1.2.3` the `prerelease` policy yields `1.2.4-alpha.0`, then
`1.2.4-alpha.1`; in general, on a version that already has a prerelease it
keeps `(major, minor, patch)` and increments the prerelease number, a
missing number counting as `0`. -/
theorem c7_prerelease_bump :
    bump_version "1.2.3".data .prerelease "alpha".data = some "1.2.4-alpha.0".data ∧
    bump_version "1.2.4-alpha.0".data .prerelease "alpha".data = some "1.2.4-alpha.1".data ∧
    ∀ (s preid : Str) (M m p : Nat) (t : Str) (pn : Option Nat),
      parse_version s = some (M, m, p, some t, pn) →
      bump_version s .prerelease preid =
        some (format_version M m p (some t) (some (pn.getD 0 + 1)) (pfxOf s)) ∧
      parse_version (format_version M m p (some t) (some (pn.getD 0 + 1)) (pfxOf s)) =
        some (M, m, p, some t, some (pn.getD 0 + 1)) := by
  refine ⟨by decide, by decide, ?_⟩
  intro s preid M m p t pn h
  rcases parseVerCore_pre_sound h with ⟨hx, _⟩ | ⟨t', hx, ht0, hta⟩
  · exact absurd hx (by simp)
  · have hx2 : t' = t := by
      injection hx with q
      exact q.symm
    subst hx2
    exact ⟨bump_version_prerelease preid h ht0,
      (parse_format_roundtrip M m p (some t') (some (pn.getD 0 + 1)) (pfxOf s)
        (pfxOf_cases s) (Or.inr ⟨t', rfl, ht0, hta⟩)).1⟩

theorem c7_prerelease_bump_witness :
    bump_version "2.0.0-rc.3".data .prerelease "zeta".data = some "2.0.0-rc.4".data := by
  have h := (c7_prerelease_bump.2.2 "2.0.0-rc.3".data "zeta".data 2 0 0 "rc".data
    (some 3) (by decide)).1
  rw [h]
  decide

/-- C9: under the `prerelease` policy on a version that already has a
prerelease, the existing identifier is kept and the supplied identifier is
ignored; e.g. `1.2.3-beta.1` bumped with identifier `alpha` yields
`1.2.3-beta.2`. -/
theorem c9_preid_ignored (s preid preid2 : Str) (M m p : Nat) (t : Str) (pn : Option Nat)
    (h : parse_version s = some (M, m, p, some t, pn)) :
    bump_version s .prerelease preid =
      some (format_version M m p (some t) (some (pn.getD 0 + 1)) (pfxOf s)) ∧
    bump_version s .prerelease preid = bump_version s .prerelease preid2 ∧
    bump_version "1.2.3-beta.1".data .prerelease "alpha".data = some "1.2.3-beta.2".data := by
  rcases parseVerCore_pre_sound h with ⟨hx, _⟩ | ⟨t', hx, ht0, hta⟩
  · exact absurd hx (by simp)
  · have hx2 : t' = t := by
      injection hx with q
      exact q.symm
    subst hx2
    refine ⟨bump_version_prerelease preid h ht0, ?_, by decide⟩
    rw [bump_version_prerelease preid h ht0, bump_version_prerelease preid2 h ht0]

theorem c9_preid_ignored_witness :
    bump_version "1.2.3-beta.1".data .prerelease "alpha".data =
      bump_version "1.2.3-beta.1".data .prerelease "omega".data :=
  (c9_preid_ignored "1.2.3-beta.1".data "alpha".data "omega".data 1 2 3 "beta".data
    (some 1) (by decide)).2.1

/-! ## C1: characterization of the strings accepted by `parse_version` -/

/-- A non-empty run of decimal digits. -/
def DigitsRun (d : Str) : Prop := d ≠ [] ∧ ∀ c ∈ d, isDigitC c = true

/-- A non-empty run of ASCII letters. -/
def AlphaRun (l : Str) : Prop := l ≠ [] ∧ ∀ c ∈ l, isAlphaC c = true

/-- The suffixes accepted after `MAJOR.MINOR.PATCH`: nothing, or `-` and a
letter run followed by an optional `.` and an optional digit run, each
independently optional. -/
def SufOk (suf : Str) : Prop :=
  suf = [] ∨
    ∃ L q, suf = '-' :: (L ++ q) ∧ AlphaRun L ∧
      (q = [] ∨ (∃ ds, q = '.' :: ds ∧ ∀ c ∈ ds, isDigitC c = true) ∨
        (q ≠ [] ∧ ∀ c ∈ q, isDigitC c = true))

/-- The version grammar actually accepted by `parse_version`: after
removing every leading `'v'` and one optional trailing newline, the text
decomposes as three digit runs separated by dots plus an accepted
suffix. -/
def VersionGrammar (s : Str) : Prop :=
  ∃ d1 d2 d3 suf,
    stripNl1 (stripV s) = d1 ++ '.' :: (d2 ++ '.' :: (d3 ++ suf)) ∧
    DigitsRun d1 ∧ DigitsRun d2 ∧ DigitsRun d3 ∧ SufOk suf

theorem parsePre_sound_shape {r : Str} {o : Option Str × Option Nat}
    (h : parsePre r = some o) : SufOk r := by
  cases r with
  | nil => exact Or.inl rfl
  | cons c r6 =>
    by_cases hc : c = '-'
    · subst hc
      rw [parsePre_dash] at h
      by_cases hL : r6.takeWhile isAlphaC = []
      · rw [if_pos hL] at h
        exact Option.noConfusion h
      · rw [if_neg hL] at h
        right
        refine ⟨r6.takeWhile isAlphaC, r6.dropWhile isAlphaC,
          by rw [List.takeWhile_append_dropWhile],
          ⟨hL, fun c hc2 => List.mem_takeWhile_imp hc2⟩, ?_⟩
        split at h
        · exact Or.inl (by assumption)
        · rename_i c2 t heq
          split at h
          · rename_i hdotc
            subst hdotc
            split at h
            · rename_i ht
              subst ht
              exact Or.inr (Or.inl ⟨[], by rw [heq], by simp⟩)
            · split at h
              · rename_i hall
                refine Or.inr (Or.inl ⟨t, by rw [heq], ?_⟩)
                intro c hc2
                exact List.all_eq_true.mp hall c hc2
              · exact Option.noConfusion h
          · split at h
            · rename_i hall
              refine Or.inr (Or.inr ⟨by rw [heq]; simp, ?_⟩)
              rw [heq]
              intro c hc2
              exact List.all_eq_true.mp hall c hc2
            · exact Option.noConfusion h
    · simp only [parsePre, if_neg hc] at h
      exact absurd h (by simp)

/-- General completeness of `parseVerCore` on an explicit decomposition. -/
theorem parseVerCore_complete_runs (d1 d2 d3 sfx : Str) (o : Option Str × Option Nat)
    (h1 : DigitsRun d1) (h2 : DigitsRun d2) (h3 : DigitsRun d3)
    (hs : parsePre sfx = some o)
    (hhead : ∀ c, sfx.head? = some c → isDigitC c = false) :
    parseVerCore (d1 ++ '.' :: (d2 ++ '.' :: (d3 ++ sfx))) =
      some (strToNat d1, strToNat d2, strToNat d3, o.1, o.2) := by
  obtain ⟨pt, pn⟩ := o
  have hdot : ∀ (x : Str), ∀ c, ('.' :: x : Str).head? = some c → isDigitC c = false := by
    intro x c hc; simp at hc; subst hc; decide
  unfold parseVerCore
  rw [scanNum_complete _ _ h1.1 h1.2 (hdot _)]
  dsimp only
  rw [if_pos rfl, scanNum_complete _ _ h2.1 h2.2 (hdot _)]
  dsimp only
  rw [if_pos rfl, scanNum_complete _ _ h3.1 h3.2 hhead]
  dsimp only
  rw [hs]

/-- Soundness of `parseVerCore`: a successful parse exhibits the grammar
decomposition. -/
theorem parseVerCore_sound {cs : Str} {x : Nat × Nat × Nat × Option Str × Option Nat}
    (h : parseVerCore cs = some x) :
    ∃ d1 d2 d3 suf, cs = d1 ++ '.' :: (d2 ++ '.' :: (d3 ++ suf)) ∧
      DigitsRun d1 ∧ DigitsRun d2 ∧ DigitsRun d3 ∧ SufOk suf := by
  unfold parseVerCore at h
  repeat' split at h
  all_goals try exact Option.noConfusion h
  rename_i x1 M ra c1 r2 heq1 hc1 x2 mm rb c2 r4 heq2 hc2 x3 pp r5 heq3 x4 pt pn heq4
  subst hc1
  subst hc2
  obtain ⟨d1, hcs1, hne1, hall1, hM1, hh1⟩ := scanNum_sound heq1
  obtain ⟨d2, hcs2, hne2, hall2, hM2, hh2⟩ := scanNum_sound heq2
  obtain ⟨d3, hcs3, hne3, hall3, hM3, hh3⟩ := scanNum_sound heq3
  refine ⟨d1, d2, d3, r5, ?_, ⟨hne1, hall1⟩, ⟨hne2, hall2⟩, ⟨hne3, hall3⟩,
    parsePre_sound_shape heq4⟩
  rw [hcs1, hcs2, hcs3]

theorem parsePre_of_sufOk {suf : Str} (h : SufOk suf) :
    ∃ o, parsePre suf = some o ∧ ∀ c, suf.head? = some c → isDigitC c = false := by
  rcases h with rfl | ⟨L, q, rfl, ⟨hL0, hLall⟩, hq⟩
  · exact ⟨(none, none), parsePre_nil, by intro c hc; simp at hc⟩
  · have hhead : ∀ c, (('-' :: (L ++ q)) : Str).head? = some c → isDigitC c = false := by
      intro c hc; simp at hc; subst hc; decide
    rcases hq with rfl | ⟨ds, rfl, hds⟩ | ⟨hq0, hqall⟩
    · refine ⟨(some L, none), ?_, hhead⟩
      rw [List.append_nil]
      exact parsePre_complete_bare L hL0 hLall
    · cases ds with
      | nil => exact ⟨(some L, none), parsePre_complete_dot L hL0 hLall, hhead⟩
      | cons c0 t =>
        exact ⟨(some L, some (strToNat (c0 :: t))),
          parsePre_complete_dotnum L (c0 :: t) hL0 hLall (by simp) hds, hhead⟩
    · exact ⟨(some L, some (strToNat q)),
        parsePre_complete_num L q hL0 hLall hq0 hqall, hhead⟩

/-- Recognizer transcribed from the words of the specification for C1:
an optional single leading `v`, three dot-separated runs of decimal
digits, and an optional prerelease suffix of a dash, one or more letters,
and optionally a dot followed by one or more decimal digits. -/
def specC1Grammar (s : Str) : Bool :=
  let cs := if s.head? = some 'v' then s.tail else s
  let d1 := cs.takeWhile isDigitC
  let r1 := cs.dropWhile isDigitC
  !(d1 = []) &&
    match r1 with
    | [] => false
    | c :: r2 =>
      c == '.' &&
        (let d2 := r2.takeWhile isDigitC
         let r3 := r2.dropWhile isDigitC
         !(d2 = []) &&
           match r3 with
           | [] => false
           | c2 :: r4 =>
             c2 == '.' &&
               (let d3 := r4.takeWhile isDigitC
                let r5 := r4.dropWhile isDigitC
                !(d3 = []) &&
                  match r5 with
                  | [] => true
                  | c3 :: r6 =>
                    c3 == '-' &&
                      (let L := r6.takeWhile isAlphaC
                       let r7 := r6.dropWhile isAlphaC
                       !(L = []) &&
                         match r7 with
                         | [] => true
                         | c4 :: t => c4 == '.' && !(t = []) && t.all isDigitC)))

/-- C1 (amended): `parse_version` succeeds exactly on the strings that,
after removing every leading `'v'` (not just one) and tolerating one
trailing newline, consist of three dot-separated digit runs followed by
an optional suffix of a dash, one or more letters, an optional dot and an
optional digit run (the dot and the digits being independently
optional); on every other string it fails with `InvalidVersion`. -/
theorem c1_amended (s : Str) : (parse_version s).isSome = true ↔ VersionGrammar s := by
  constructor
  · intro h
    rw [Option.isSome_iff_exists] at h
    obtain ⟨x, hx⟩ := h
    exact parseVerCore_sound hx
  · rintro ⟨d1, d2, d3, suf, heq, h1, h2, h3, hsuf⟩
    obtain ⟨o, ho, hhead⟩ := parsePre_of_sufOk hsuf
    unfold parse_version
    rw [heq, parseVerCore_complete_runs d1 d2 d3 suf o h1 h2 h3 ho hhead]
    rfl

theorem c1_amended_witness : VersionGrammar "v1.2.3-alpha.5".data :=
  (c1_amended "v1.2.3-alpha.5".data).mp (by decide)

/-- C1 counterexample: `"vv1.2.3"` does not match the claimed grammar
(the grammar allows at most one leading `v`), yet `parse_version`
accepts it, because `lstrip("v")` removes every leading `v`. -/
theorem c1_counterexample :
    specC1Grammar "vv1.2.3".data = false ∧
      (parse_version "vv1.2.3".data).isSome = true := by
  constructor
  · decide
  · decide

/-! ## C2: the bump-type suggestion -/

theorem analyze_flags (cs : List RawCommit) (a b : Bool) :
    cs.foldl (fun (fl : Bool × Bool) c => (fl.1 || breakingSubject c, fl.2 || featSubject c))
      (a, b) = (a || cs.any breakingSubject, b || cs.any featSubject) := by
  induction cs generalizing a b with
  | nil => simp
  | cons c t ih => simp [ih, Bool.or_assoc]

/-- The subject type as the claim words it: the lower-cased first word
before `'('` or `':'`. -/
def specTypeOf (s : Str) : Str :=
  (s.map Char.toLower).takeWhile (fun c => !(c == '(') && !(c == ':'))

/-- The claim's major test: `'!'` immediately before the header colon, or
the case-insensitive substring `"breaking"` anywhere in the subject. -/
def specMajorSubject (c : RawCommit) : Bool :=
  let l := c.subject.map Char.toLower
  (l.contains ':' && (l.takeWhile (fun x => !(x == ':'))).getLast? == some '!') ||
    containsSub "breaking".data l

/-- The claim's minor test: the subject type equals `"feat"`. -/
def specMinorSubject (c : RawCommit) : Bool :=
  specTypeOf c.subject == "feat".data

/-- The suggestion rule exactly as the claim states it. -/
def specSuggest (commits : List RawCommit) : BumpType :=
  if commits.any specMajorSubject then .major
  else if commits.any specMinorSubject then .minor
  else .patch

/-- C2 (amended): `analyze_commits` returns `major` iff some subject,
lower-cased, contains `'!'` anywhere before its first colon (anywhere at
all when there is no colon) or contains the substring `"breaking"`;
otherwise `minor` iff some lower-cased subject starts with the four
characters `"feat"` (so `"feature: ..."` also counts); otherwise
`patch`. -/
theorem c2_amended (commits : List RawCommit) :
    (analyze_commits commits = .major ↔ ∃ c ∈ commits, breakingSubject c = true) ∧
    (analyze_commits commits = .minor ↔
      (¬ ∃ c ∈ commits, breakingSubject c = true) ∧ ∃ c ∈ commits, featSubject c = true) ∧
    (analyze_commits commits = .patch ↔
      (¬ ∃ c ∈ commits, breakingSubject c = true) ∧
        ¬ ∃ c ∈ commits, featSubject c = true) := by
  have hform : analyze_commits commits =
      (if commits.any breakingSubject then .major
       else if commits.any featSubject then .minor else .patch) := by
    unfold analyze_commits
    rw [analyze_flags]
    rfl
  rw [hform]
  cases hb : commits.any breakingSubject <;> cases hf : commits.any featSubject <;>
    simp_all [← List.any_eq_true]

/-- C2 counterexample: the single subject `"feature: improve logging"`
has type `"feature"`, so the claim requires `patch`, but the code tests
`startswith("feat")` on the subject and answers `minor`. -/
theorem c2_counterexample :
    analyze_commits [⟨"abcd1234".data, "feature: improve logging".data⟩] = BumpType.minor ∧
    specSuggest [⟨"abcd1234".data, "feature: improve logging".data⟩] = BumpType.patch ∧
    BumpType.minor ≠ BumpType.patch :=
  ⟨by decide, by decide, by decide⟩

/-! ## C6/C10: characterization of `parse_commit` -/

theorem scanType_sound {s ty r : Str} (h : scanType s = some (ty, r)) :
    s = ty ++ r ∧ ty ≠ [] ∧ (∀ c ∈ ty, isWordC c = true) ∧
      (∀ c, r.head? = some c → isWordC c = false) := by
  by_cases hne : s.takeWhile isWordC = []
  · exfalso
    unfold scanType at h
    simp [hne] at h
  · unfold scanType at h
    simp only [if_neg hne] at h
    injection h with h1
    injection h1 with ha hb
    subst ha
    subst hb
    refine ⟨(List.takeWhile_append_dropWhile ..).symm, hne,
      fun c hc => List.mem_takeWhile_imp hc, ?_⟩
    intro c hc
    have := List.head?_dropWhile_not isWordC s
    rw [hc] at this
    simpa using this

theorem scanType_complete (ty r : Str) (hty : ty ≠ [])
    (htyw : ∀ c ∈ ty, isWordC c = true)
    (hr : ∀ c, r.head? = some c → isWordC c = false) :
    scanType (ty ++ r) = some (ty, r) := by
  unfold scanType
  rw [takeWhile_run _ _ _ htyw hr, dropWhile_run _ _ _ htyw hr]
  simp [hty]

theorem scanScope_sound {r sc r2 : Str} (h : scanScope r = some (sc, r2)) :
    (sc = [] ∧ r2 = r ∧ (∀ c, r.head? = some c → c ≠ '(')) ∨
      (sc ≠ [] ∧ (∀ c ∈ sc, c ≠ ')') ∧ r = '(' :: (sc ++ ')' :: r2)) := by
  cases r with
  | nil =>
    left
    injection h with h1
    injection h1 with ha hb
    subst ha
    subst hb
    exact ⟨rfl, rfl, by intro c hc; simp at hc⟩
  | cons c rr =>
    by_cases hc : c = '('
    · subst hc
      right
      unfold scanScope at h
      dsimp only at h
      rw [if_pos rfl] at h
      split at h
      · exact Option.noConfusion h
      · rename_i c2 r3 heq
        by_cases hc2 : c2 = ')'
        · rw [if_pos hc2] at h
          subst hc2
          by_cases hsc : rr.takeWhile (fun x => !(x == ')')) = []
          · rw [if_pos hsc] at h
            exact Option.noConfusion h
          · rw [if_neg hsc] at h
            injection h with h1
            injection h1 with ha hb
            subst ha
            subst hb
            refine ⟨hsc, ?_, ?_⟩
            · intro c hcm
              have := List.mem_takeWhile_imp hcm
              simpa using this
            · have := List.takeWhile_append_dropWhile
                (p := fun x => !(x == ')')) (l := rr)
              rw [heq] at this
              exact congrArg (List.cons '(') this.symm
        · rw [if_neg hc2] at h
          exact Option.noConfusion h
    · unfold scanScope at h
      dsimp only at h
      rw [if_neg hc] at h
      left
      injection h with h1
      injection h1 with ha hb
      subst ha
      subst hb
      refine ⟨rfl, rfl, ?_⟩
      intro x hx
      simp at hx
      subst hx
      exact hc

theorem scanScope_complete_nil (r : Str) (hr : ∀ c, r.head? = some c → c ≠ '(') :
    scanScope r = some ([], r) := by
  cases r with
  | nil => rfl
  | cons c rr =>
    unfold scanScope
    dsimp only
    rw [if_neg (hr c rfl)]

theorem scanScope_complete_scope (sc r2 : Str) (hsc : sc ≠ [])
    (hall : ∀ c ∈ sc, c ≠ ')') :
    scanScope ('(' :: (sc ++ ')' :: r2)) = some (sc, r2) := by
  have hscP : ∀ c ∈ sc, (fun x => !(x == ')')) c = true := by
    intro c hc
    simpa using hall c hc
  have hhd : ∀ c, (')' :: r2 : Str).head? = some c → (fun x => !(x == ')')) c = false := by
    intro c hc
    simp at hc
    subst hc
    simp
  unfold scanScope
  dsimp only
  rw [if_pos rfl, takeWhile_run _ _ _ hscP hhd, dropWhile_run _ _ _ hscP hhd]
  simp [hsc]

theorem scanBang_sound {r r2 : Str} {b : Bool} (h : scanBang r = (b, r2)) :
    (b = true ∧ r = '!' :: r2) ∨
      (b = false ∧ r2 = r ∧ ∀ c, r.head? = some c → c ≠ '!') := by
  cases r with
  | nil =>
    right
    injection h with ha hb
    subst ha
    subst hb
    exact ⟨rfl, rfl, by intro c hc; simp at hc⟩
  | cons c rr =>
    by_cases hc : c = '!'
    · subst hc
      left
      unfold scanBang at h
      dsimp only at h
      rw [if_pos rfl] at h
      injection h with ha hb
      subst ha
      subst hb
      exact ⟨rfl, rfl⟩
    · right
      unfold scanBang at h
      dsimp only at h
      rw [if_neg hc] at h
      injection h with ha hb
      subst ha
      subst hb
      refine ⟨rfl, rfl, ?_⟩
      intro x hx
      simp at hx
      subst hx
      exact hc

theorem scanBang_bang (r : Str) : scanBang ('!' :: r) = (true, r) := by
  unfold scanBang
  dsimp only
  rw [if_pos rfl]

theorem scanBang_no_bang (r : Str) (hr : ∀ c, r.head? = some c → c ≠ '!') :
    scanBang r = (false, r) := by
  cases r with
  | nil => rfl
  | cons c rr =>
    unfold scanBang
    dsimp only
    rw [if_neg (hr c rfl)]

theorem scanColon_sound {r r5 : Str} (h : scanColon r = some r5) :
    ∃ ws, r = ws ++ ':' :: r5 ∧ ∀ c ∈ ws, isSpaceC c = true := by
  unfold scanColon at h
  split at h
  · exact Option.noConfusion h
  · rename_i c r2 heq
    by_cases hc : c = ':'
    · subst hc
      rw [if_pos rfl] at h
      injection h with h1
      subst h1
      refine ⟨r.takeWhile isSpaceC, ?_, fun c hc2 => List.mem_takeWhile_imp hc2⟩
      have := List.takeWhile_append_dropWhile (p := isSpaceC) (l := r)
      rw [heq] at this
      exact this.symm
    · rw [if_neg hc] at h
      exact Option.noConfusion h

theorem scanColon_complete (ws r5 : Str) (hws : ∀ c ∈ ws, isSpaceC c = true) :
    scanColon (ws ++ ':' :: r5) = some r5 := by
  have hhd : ∀ c, (':' :: r5 : Str).head? = some c → isSpaceC c = false := by
    intro c hc
    simp at hc
    subst hc
    decide
  unfold scanColon
  rw [dropWhile_run _ _ _ hws hhd]
  dsimp only
  rw [if_pos rfl]

/-- The grammar actually recognized by `parse_commit`:
`type [(scope)] [!] WS ':' rest`, where `type` is a non-empty run of word
characters, the optional scope is a non-empty parenthesized run of
non-`')'` characters, the optional `'!'` marks a breaking change, `WS` is
any run of whitespace, and `matchMsg` extracts a message from `rest`
(which requires at least one usable message character). -/
def CommitMatch (s ty sc : Str) (bang : Bool) (m : Str) : Prop :=
  ∃ scPart bangPart ws rest,
    s = ty ++ (scPart ++ (bangPart ++ (ws ++ ':' :: rest))) ∧
    ty ≠ [] ∧ (∀ c ∈ ty, isWordC c = true) ∧
    ((scPart = [] ∧ sc = []) ∨
      (sc ≠ [] ∧ (∀ c ∈ sc, c ≠ ')') ∧ scPart = '(' :: (sc ++ [')']))) ∧
    ((bang = true ∧ bangPart = ['!']) ∨ (bang = false ∧ bangPart = [])) ∧
    (∀ c ∈ ws, isSpaceC c = true) ∧
    matchMsg rest = some m

theorem space_ne_lparen {c : Char} (h : isSpaceC c = true) : c ≠ '(' := by
  rcases space_cases h with rfl | rfl | rfl | rfl | rfl | rfl <;> decide

theorem space_ne_bang {c : Char} (h : isSpaceC c = true) : c ≠ '!' := by
  rcases space_cases h with rfl | rfl | rfl | rfl | rfl | rfl <;> decide

/-- Evaluation of `parseCommitCore` on an arbitrary decomposed header:
the result is entirely decided by `matchMsg` on the text after the
colon. -/
theorem parseCommitCore_header (ty scPart bangPart ws rest sc : Str) (bang : Bool)
    (hty : ty ≠ []) (htyw : ∀ c ∈ ty, isWordC c = true)
    (hscd : (scPart = [] ∧ sc = []) ∨
      (sc ≠ [] ∧ (∀ c ∈ sc, c ≠ ')') ∧ scPart = '(' :: (sc ++ [')'])))
    (hbd : (bang = true ∧ bangPart = ['!']) ∨ (bang = false ∧ bangPart = []))
    (hws : ∀ c ∈ ws, isSpaceC c = true) :
    parseCommitCore (ty ++ (scPart ++ (bangPart ++ (ws ++ ':' :: rest)))) =
      (match matchMsg rest with
       | some m => some (ty, sc, bang, m)
       | none => none) := by
  have hwsOrColon : ∀ c, (ws ++ ':' :: rest).head? = some c →
      isSpaceC c = true ∨ c = ':' := by
    intro c hc
    cases ws with
    | nil =>
      simp at hc
      exact Or.inr hc.symm
    | cons w t =>
      simp at hc
      exact Or.inl (hc ▸ hws w (by simp))
  have hbangStep : scanBang (bangPart ++ (ws ++ ':' :: rest)) =
      (bang, ws ++ ':' :: rest) := by
    rcases hbd with ⟨rfl, rfl⟩ | ⟨rfl, rfl⟩
    · exact scanBang_bang _
    · rw [List.nil_append]
      refine scanBang_no_bang _ ?_
      intro c hc
      rcases hwsOrColon c hc with hsp | rfl
      · exact space_ne_bang hsp
      · decide
  have hbangHead : ∀ c, (bangPart ++ (ws ++ ':' :: rest)).head? = some c →
      isWordC c = false ∧ c ≠ '(' := by
    intro c hc
    rcases hbd with ⟨_, rfl⟩ | ⟨_, rfl⟩
    · simp at hc
      subst hc
      exact ⟨by decide, by decide⟩
    · rw [List.nil_append] at hc
      rcases hwsOrColon c hc with hsp | rfl
      · exact ⟨space_not_word hsp, space_ne_lparen hsp⟩
      · exact ⟨by decide, by decide⟩
  have hscopeStep : scanScope (scPart ++ (bangPart ++ (ws ++ ':' :: rest))) =
      some (sc, bangPart ++ (ws ++ ':' :: rest)) := by
    rcases hscd with ⟨rfl, rfl⟩ | ⟨hsc0, hscall, rfl⟩
    · rw [List.nil_append]
      exact scanScope_complete_nil _ (fun c hc => (hbangHead c hc).2)
    · have : ('(' :: (sc ++ [')'])) ++ (bangPart ++ (ws ++ ':' :: rest)) =
          '(' :: (sc ++ ')' :: (bangPart ++ (ws ++ ':' :: rest))) := by
        simp
      rw [this]
      exact scanScope_complete_scope sc _ hsc0 hscall
  have htyHead : ∀ c, (scPart ++ (bangPart ++ (ws ++ ':' :: rest))).head? = some c →
      isWordC c = false := by
    intro c hc
    rcases hscd with ⟨rfl, _⟩ | ⟨_, _, rfl⟩
    · rw [List.nil_append] at hc
      exact (hbangHead c hc).1
    · simp at hc
      subst hc
      decide
  unfold parseCommitCore
  rw [scanType_complete ty _ hty htyw htyHead]
  dsimp only
  rw [hscopeStep]
  dsimp only
  rw [hbangStep]
  dsimp only
  rw [scanColon_complete ws rest hws]
  dsimp only
  cases matchMsg rest <;> rfl

theorem parseCommitCore_complete {s ty sc : Str} {bang : Bool} {m : Str}
    (h : CommitMatch s ty sc bang m) :
    parseCommitCore s = some (ty, sc, bang, m) := by
  obtain ⟨scPart, bangPart, ws, rest, rfl, hty, htyw, hscd, hbd, hws, hmsg⟩ := h
  rw [parseCommitCore_header ty scPart bangPart ws rest sc bang hty htyw hscd hbd hws,
    hmsg]

theorem parseCommitCore_sound {s ty sc : Str} {bang : Bool} {m : Str}
    (h : parseCommitCore s = some (ty, sc, bang, m)) : CommitMatch s ty sc bang m := by
  unfold parseCommitCore at h
  cases h1 : scanType s with
  | none => rw [h1] at h; exact Option.noConfusion h
  | some q =>
    obtain ⟨ty1, r1⟩ := q
    rw [h1] at h
    dsimp only at h
    cases h2 : scanScope r1 with
    | none => rw [h2] at h; exact Option.noConfusion h
    | some q2 =>
      obtain ⟨sc1, r2⟩ := q2
      rw [h2] at h
      dsimp only at h
      rcases h3 : scanBang r2 with ⟨b1, r3⟩
      rw [h3] at h
      dsimp only at h
      cases h4 : scanColon r3 with
      | none => rw [h4] at h; exact Option.noConfusion h
      | some r5 =>
        rw [h4] at h
        dsimp only at h
        cases h5 : matchMsg r5 with
        | none => rw [h5] at h; exact Option.noConfusion h
        | some m1 =>
          rw [h5] at h
          dsimp only at h
          injection h with h6
          injection h6 with hA h7
          injection h7 with hB h8
          injection h8 with hC hD
          subst hA
          subst hB
          subst hC
          subst hD
          obtain ⟨hs_eq, hty0, htyw1, hr1head⟩ := scanType_sound h1
          obtain ⟨ws1, hr3eq, hwsall⟩ := scanColon_sound h4
          rcases scanScope_sound h2 with ⟨hscnil, hr2eq, _⟩ | ⟨hsc0, hscall, hr1eq⟩ <;>
            rcases scanBang_sound h3 with ⟨hbtrue, hr2eq2⟩ | ⟨hbfalse, hr3eq2, _⟩
          · subst hscnil
            subst hbtrue
            refine ⟨[], ['!'], ws1, r5, ?_, hty0, htyw1, Or.inl ⟨rfl, rfl⟩,
              Or.inl ⟨rfl, rfl⟩, hwsall, h5⟩
            rw [hs_eq, ← hr2eq, hr2eq2, hr3eq]
            simp
          · subst hscnil
            subst hbfalse
            refine ⟨[], [], ws1, r5, ?_, hty0, htyw1, Or.inl ⟨rfl, rfl⟩,
              Or.inr ⟨rfl, rfl⟩, hwsall, h5⟩
            rw [hs_eq, ← hr2eq, ← hr3eq2, hr3eq]
            simp
          · subst hbtrue
            refine ⟨'(' :: (sc1 ++ [')']), ['!'], ws1, r5, ?_, hty0, htyw1,
              Or.inr ⟨hsc0, hscall, rfl⟩, Or.inl ⟨rfl, rfl⟩, hwsall, h5⟩
            rw [hs_eq, hr1eq, hr2eq2, hr3eq]
            simp
          · subst hbfalse
            refine ⟨'(' :: (sc1 ++ [')']), [], ws1, r5, ?_, hty0, htyw1,
              Or.inr ⟨hsc0, hscall, rfl⟩, Or.inr ⟨rfl, rfl⟩, hwsall, h5⟩
            rw [hs_eq, hr1eq, ← hr3eq2, hr3eq]
            simp

/-- In the ordinary case — the text after the colon is a whitespace run
followed by a message whose first character is not whitespace and which
contains no newline — the extracted message is exactly the text after
the colon with its maximal leading-whitespace run stripped.  This pins
down the `matchMsg` component of `CommitMatch` declaratively. -/
theorem matchMsg_ordinary (ws m : Str) (hws : ∀ c ∈ ws, isSpaceC c = true)
    (hm : m ≠ []) (hhd : ∀ c, m.head? = some c → isSpaceC c = false)
    (hnl : ∀ c ∈ m, c ≠ '\n') :
    matchMsg (ws ++ m) = some m := by
  unfold matchMsg
  rw [dropWhile_run _ _ _ hws hhd]
  dsimp only
  rw [if_pos hm]
  have hlast : ¬ m.getLast? = some '\n' := by
    intro hl
    exact hnl '\n' (List.mem_of_mem_getLast? (by simp [hl])) rfl
  rw [if_neg hlast]
  have hall : m.all (fun c => !(c == '\n')) = true := by
    rw [List.all_eq_true]
    intro c hc
    simpa using hnl c hc
  rw [if_pos hall]

/-- The degenerate case of `\s*(.+)$`: when everything after the colon is
whitespace (no newline) and non-empty, the engine backtracks one
character and the message is the last whitespace character alone.  This
is why `CommitMatch` only requires "at least one usable character" after
the colon rather than a non-whitespace message. -/
theorem matchMsg_all_space (ws : Str) (h0 : ws ≠ [])
    (hws : ∀ c ∈ ws, isSpaceC c = true) (hnl : ∀ c ∈ ws, c ≠ '\n') :
    matchMsg ws = some [ws.getLast h0] := by
  unfold matchMsg
  have hdrop : ws.dropWhile isSpaceC = [] := by
    rw [List.dropWhile_eq_nil_iff]
    exact hws
  rw [hdrop]
  dsimp only
  rw [if_neg (by simp)]
  rw [List.getLast?_eq_getLast ws h0]
  dsimp only
  rw [if_pos (hnl _ (List.getLast_mem h0))]

/-- C6 (amended): `parse_commit` is total.  Every subject that matches
the grammar `type[(scope)][!]` followed by optional whitespace, a colon
and a message (at least one usable character after the colon) is
classified with the lower-cased type, the scope (empty when absent), the
extracted message (the text after the colon with its maximal
leading-whitespace run stripped and one trailing newline tolerated, per
`matchMsg_ordinary` and `matchMsg_all_space`), and the breaking flag
exactly when `!` is present; every other subject — in particular one
with no colon, an empty type, an empty or unclosed scope, or nothing
usable after the colon — is classified as
`("other", "", subject, false)`. -/
theorem c6_amended (s : Str) :
    (∃ ty sc bang m, CommitMatch s ty sc bang m ∧
      parse_commit s = (ty.map Char.toLower, sc, m, bang)) ∨
    ((∀ ty sc bang m, ¬ CommitMatch s ty sc bang m) ∧
      parse_commit s = ("other".data, [], s, false)) := by
  cases hc : parseCommitCore s with
  | some q =>
    obtain ⟨ty, sc, bang, m⟩ := q
    left
    refine ⟨ty, sc, bang, m, parseCommitCore_sound hc, ?_⟩
    unfold parse_commit
    rw [hc]
  | none =>
    right
    refine ⟨?_, by unfold parse_commit; rw [hc]⟩
    intro ty sc bang m hm
    have h2 := parseCommitCore_complete hm
    rw [hc] at h2
    exact Option.noConfusion h2

theorem c6_amended_witness :
    CommitMatch "feat(api)!: add endpoint".data "feat".data "api".data true
      "add endpoint".data ∧
    parse_commit "feat(api)!: add endpoint".data =
      ("feat".data, "api".data, "add endpoint".data, true) := by
  rcases c6_amended "feat(api)!: add endpoint".data with
    ⟨ty, sc, bang, m, hm, hp⟩ | ⟨_, hp⟩
  · have he : (ty.map Char.toLower, sc, m, bang) =
        ("feat".data, "api".data, "add endpoint".data, true) := by
      rw [← hp]
      decide
    injection he with e1 h1
    injection h1 with e2 h2
    injection h2 with e3 e4
    subst e2
    subst e3
    subst e4
    have hlen : ty.length = 4 := by
      have h3 := congrArg List.length e1
      rw [List.length_map] at h3
      rw [h3]
      decide
    obtain ⟨scPart, bangPart, ws, rest, hs, hrest⟩ := hm
    have hty4 : ty = "feat".data := by
      have h4 := congrArg (List.take 4) hs
      rw [List.take_left' hlen] at h4
      rw [← h4]
      decide
    subst hty4
    refine ⟨⟨scPart, bangPart, ws, rest, hs, hrest⟩, ?_⟩
    rw [hp]
    decide
  · exact absurd hp (by decide)

/-- Colon-and-message check transcribed from the claim's grammar: the
colon must follow immediately, with at least one message character after
it. -/
def specColonMsg (r : Str) : Bool :=
  match r with
  | [] => false
  | c :: r2 => c == ':' && !(r2 = [])

/-- Optional `!` then colon, per the claim's grammar. -/
def specBangColon (r : Str) : Bool :=
  match r with
  | [] => false
  | c :: r2 => if c = '!' then specColonMsg r2 else specColonMsg (c :: r2)

/-- Recognizer transcribed from the words of the specification for C6:
`type[(scope)][!]: message` with a word-character type, an optional
non-empty parenthesized scope, an optional `!`, and then immediately the
colon — no whitespace before the colon. -/
def specC6Grammar (s : Str) : Bool :=
  let ty := s.takeWhile isWordC
  let r1 := s.dropWhile isWordC
  !(ty = []) &&
    (match r1 with
     | [] => false
     | c :: r2 =>
       if c = '(' then
         let sc := r2.takeWhile (fun x => !(x == ')'))
         match r2.dropWhile (fun x => !(x == ')')) with
         | [] => false
         | c2 :: r3 => c2 == ')' && !(sc = []) && specBangColon r3
       else specBangColon (c :: r2))

/-- C6 counterexample: `"feat : x"` does not match the claimed grammar
(which admits no whitespace before the colon), so the claim requires the
fallback `("other", "", "feat : x", false)`; the code's pattern contains
`\s*` before the colon and classifies it as a `feat` commit instead. -/
theorem c6_counterexample :
    specC6Grammar "feat : x".data = false ∧
    parse_commit "feat : x".data = ("feat".data, [], "x".data, false) ∧
    parse_commit "feat : x".data ≠ ("other".data, [], "feat : x".data, false) :=
  ⟨by decide, by decide, by decide⟩

/-- C10: a subject of the shape `type[(scope)][!]:` with nothing after
the colon never matches (the pattern requires at least one message
character), so it is classified as
`("other", "", whole subject, false)`. -/
theorem c10_empty_message (ty scPart bangPart : Str)
    (hty : ty ≠ []) (htyw : ∀ c ∈ ty, isWordC c = true)
    (hscd : scPart = [] ∨
      ∃ sc, sc ≠ [] ∧ (∀ c ∈ sc, c ≠ ')') ∧ scPart = '(' :: (sc ++ [')']))
    (hbd : bangPart = [] ∨ bangPart = ['!']) :
    parse_commit (ty ++ (scPart ++ (bangPart ++ [':']))) =
      ("other".data, [], ty ++ (scPart ++ (bangPart ++ [':'])), false) := by
  have hcore : parseCommitCore (ty ++ (scPart ++ (bangPart ++ ([] ++ ':' :: [])))) = none := by
    rcases hscd with rfl | ⟨sc, hsc0, hscall, rfl⟩ <;> rcases hbd with rfl | rfl
    · rw [parseCommitCore_header ty [] [] [] [] [] false hty htyw
        (Or.inl ⟨rfl, rfl⟩) (Or.inr ⟨rfl, rfl⟩) (by intro c hc; simp at hc)]
      rfl
    · rw [parseCommitCore_header ty [] ['!'] [] [] [] true hty htyw
        (Or.inl ⟨rfl, rfl⟩) (Or.inl ⟨rfl, rfl⟩) (by intro c hc; simp at hc)]
      rfl
    · rw [parseCommitCore_header ty ('(' :: (sc ++ [')'])) [] [] [] sc false hty htyw
        (Or.inr ⟨hsc0, hscall, rfl⟩) (Or.inr ⟨rfl, rfl⟩) (by intro c hc; simp at hc)]
      rfl
    · rw [parseCommitCore_header ty ('(' :: (sc ++ [')'])) ['!'] [] [] sc true hty htyw
        (Or.inr ⟨hsc0, hscall, rfl⟩) (Or.inl ⟨rfl, rfl⟩) (by intro c hc; simp at hc)]
      rfl
  simp only [List.nil_append] at hcore
  unfold parse_commit
  rw [hcore]

theorem c10_empty_message_witness :
    parse_commit "feat(api)!:".data = ("other".data, [], "feat(api)!:".data, false) := by
  have h := c10_empty_message "feat".data ("(api)".data) ['!'] (by decide)
    (by decide) (Or.inr ⟨"api".data, by decide, by decide, by decide⟩) (Or.inr rfl)
  simpa using h

/-! ## C3/C8: the grouped dictionary in closed form -/

/-- The bucket key of a classified commit. -/
def cKey (c : CCommit) : Str := bucketKey c.ctype

/-- Deduplication keeping first occurrences — the key order of a Python
dict built by insertion. -/
def firstOccur (l : List Str) : List Str :=
  l.foldl (fun acc k => if acc.contains k then acc else acc ++ [k]) []

theorem mem_firstOccur_aux (l acc : List Str) (a : Str) :
    a ∈ l.foldl (fun acc k => if acc.contains k then acc else acc ++ [k]) acc ↔
      a ∈ acc ∨ a ∈ l := by
  induction l generalizing acc with
  | nil => simp
  | cons k t ih =>
    simp only [List.foldl_cons]
    rw [ih]
    by_cases hk : acc.contains k = true
    · rw [if_pos hk]
      have hkm : k ∈ acc := by simpa using hk
      simp only [List.mem_cons]
      constructor
      · rintro (h | h)
        · exact Or.inl h
        · exact Or.inr (Or.inr h)
      · rintro (h | rfl | h)
        · exact Or.inl h
        · exact Or.inl hkm
        · exact Or.inr h
    · rw [if_neg hk]
      simp only [List.mem_append, List.mem_singleton, List.mem_cons]
      tauto

theorem mem_firstOccur (l : List Str) (a : Str) : a ∈ firstOccur l ↔ a ∈ l := by
  unfold firstOccur
  rw [mem_firstOccur_aux]
  simp

theorem nodup_firstOccur_aux (l acc : List Str) (h : acc.Nodup) :
    (l.foldl (fun acc k => if acc.contains k then acc else acc ++ [k]) acc).Nodup := by
  induction l generalizing acc with
  | nil => simpa using h
  | cons k t ih =>
    simp only [List.foldl_cons]
    by_cases hk : acc.contains k = true
    · rw [if_pos hk]
      exact ih acc h
    · rw [if_neg hk]
      refine ih _ ?_
      have hkm : k ∉ acc := by simpa using hk
      simp [List.nodup_append, h, hkm]

theorem nodup_firstOccur (l : List Str) : (firstOccur l).Nodup :=
  nodup_firstOccur_aux l [] (by simp)

theorem firstOccur_append_one (l : List Str) (k : Str) :
    firstOccur (l ++ [k]) =
      if (firstOccur l).contains k then firstOccur l else firstOccur l ++ [k] := by
  unfold firstOccur
  rw [List.foldl_append]
  rfl

/-- The grouped dict of `group_commits`, in closed form: one bucket per
key in first-occurrence order, each holding the classified commits with
that key in input order. -/
def groupedOf (done : List CCommit) : List (Str × List CCommit) :=
  (firstOccur (done.map cKey)).map
    (fun ty => (ty, done.filter (fun c => cKey c == ty)))

theorem insertBucket_map_not_mem (keys : List Str) (f : Str → List CCommit)
    (k : Str) (c : CCommit) (hmem : k ∉ keys) :
    insertBucket (keys.map fun ty => (ty, f ty)) k c =
      (keys.map fun ty => (ty, f ty)) ++ [(k, [c])] := by
  induction keys with
  | nil => rfl
  | cons ty rest ih =>
    have hne : ¬ (ty = k) := by
      intro hc
      exact hmem (hc ▸ List.mem_cons_self ty rest)
    simp only [List.map_cons, insertBucket, if_neg hne, List.cons_append]
    rw [ih (fun hc => hmem (List.mem_cons_of_mem ty hc))]

theorem insertBucket_map_mem (keys : List Str) (f : Str → List CCommit)
    (k : Str) (c : CCommit) (hmem : k ∈ keys) (hnd : keys.Nodup) :
    insertBucket (keys.map fun ty => (ty, f ty)) k c =
      keys.map (fun ty => (ty, f ty ++ if ty = k then [c] else [])) := by
  induction keys with
  | nil => simp at hmem
  | cons ty rest ih =>
    by_cases hk : ty = k
    · subst hk
      simp only [List.map_cons, insertBucket, if_true]
      have hnotin : ty ∉ rest := (List.nodup_cons.mp hnd).1
      congr 1
      refine (List.map_congr_left ?_).symm
      intro ty2 hty2
      have : ¬ (ty2 = ty) := fun hc => hnotin (hc ▸ hty2)
      simp [this]
    · have hmem2 : k ∈ rest := by
        rcases List.mem_cons.mp hmem with h | h
        · exact absurd h.symm hk
        · exact h
      simp only [List.map_cons, insertBucket, if_neg hk]
      rw [ih hmem2 (List.nodup_cons.mp hnd).2]
      simp [hk]

theorem insert_groupedOf (done : List CCommit) (c : CCommit) :
    insertBucket (groupedOf done) (cKey c) c = groupedOf (done ++ [c]) := by
  unfold groupedOf
  rw [List.map_append]
  simp only [List.map_cons, List.map_nil]
  rw [firstOccur_append_one]
  by_cases hmem : cKey c ∈ firstOccur (done.map cKey)
  · rw [if_pos (by simpa using hmem)]
    rw [insertBucket_map_mem _ _ _ _ hmem (nodup_firstOccur _)]
    refine List.map_congr_left ?_
    intro ty hty
    rw [List.filter_append]
    simp only [List.filter_cons, List.filter_nil]
    by_cases hk : cKey c == ty
    · have hk2 : ty = cKey c := by
        have := (beq_iff_eq (a := cKey c) (b := ty)).mp hk
        exact this.symm
      simp [hk, hk2]
    · have hk2 : ¬ (ty = cKey c) := by
        intro hc
        subst hc
        simp at hk
      simp [hk, hk2]
  · rw [if_neg (by simpa using hmem)]
    rw [insertBucket_map_not_mem _ _ _ _ hmem]
    rw [List.map_append]
    congr 1
    · refine List.map_congr_left ?_
      intro ty hty
      rw [List.filter_append]
      simp only [List.filter_cons, List.filter_nil]
      have hk : ¬ (cKey c == ty) = true := by
        intro hc
        have := (beq_iff_eq (a := cKey c) (b := ty)).mp hc
        exact hmem (this ▸ hty)
      simp [hk]
    · simp only [List.map_cons, List.map_nil]
      rw [List.filter_append]
      have h1 : done.filter (fun x => cKey x == cKey c) = [] := by
        rw [List.filter_eq_nil_iff]
        intro a ha hc
        have : cKey a = cKey c := by simpa using hc
        apply hmem
        rw [mem_firstOccur]
        exact this ▸ List.mem_map_of_mem cKey ha
      simp [h1]

theorem group_commits_eq_aux (cs : List RawCommit) (done : List CCommit) :
    cs.foldl (fun g c =>
        let cc := classifyRaw c
        insertBucket g (bucketKey cc.ctype) cc) (groupedOf done) =
      groupedOf (done ++ cs.map classifyRaw) := by
  induction cs generalizing done with
  | nil => simp
  | cons c t ih =>
    simp only [List.foldl_cons]
    have hstep : insertBucket (groupedOf done) (bucketKey (classifyRaw c).ctype)
        (classifyRaw c) = groupedOf (done ++ [classifyRaw c]) :=
      insert_groupedOf done (classifyRaw c)
    rw [hstep, ih]
    simp

/-- `group_commits` in closed form. -/
theorem group_commits_eq (cs : List RawCommit) :
    group_commits cs = groupedOf (cs.map classifyRaw) := by
  have := group_commits_eq_aux cs []
  simpa [groupedOf] using this

theorem lookupB_map_mem (keys : List Str) (f : Str → List CCommit) (ty : Str)
    (hmem : ty ∈ keys) :
    lookupB (keys.map fun k => (k, f k)) ty = some (f ty) := by
  induction keys with
  | nil => simp at hmem
  | cons k rest ih =>
    simp only [List.map_cons, lookupB]
    by_cases hk : k = ty
    · subst hk
      rw [if_pos rfl]
    · rw [if_neg hk]
      refine ih ?_
      rcases List.mem_cons.mp hmem with h | h
      · exact absurd h.symm hk
      · exact h

theorem lookupB_map_not_mem (keys : List Str) (f : Str → List CCommit) (ty : Str)
    (hmem : ty ∉ keys) :
    lookupB (keys.map fun k => (k, f k)) ty = none := by
  induction keys with
  | nil => rfl
  | cons k rest ih =>
    simp only [List.map_cons, lookupB]
    have hk : ¬ (k = ty) := fun hc => hmem (hc ▸ List.mem_cons_self k rest)
    rw [if_neg hk]
    exact ih (fun hc => hmem (List.mem_cons_of_mem k hc))

/-- The breaking-changes list of a grouped dict, in closed form: the
breaking commits bucket by bucket, in first-occurrence order of the
buckets. -/
theorem breakingList_groupedOf (done : List CCommit) :
    breakingList (groupedOf done) =
      ((firstOccur (done.map cKey)).map
        (fun ty => done.filter (fun c => c.breaking && (cKey c == ty)))).flatten := by
  unfold breakingList groupedOf
  rw [List.map_map]
  congr 1
  refine List.map_congr_left ?_
  intro ty hty
  dsimp only [Function.comp]
  rw [List.filter_filter]

/-- The three-commit example refuting the claimed global input order of
the breaking-changes list. -/
def c3ex : List RawCommit :=
  [⟨"c1".data, "fix!: alpha".data⟩,
   ⟨"c2".data, "feat!: beta".data⟩,
   ⟨"c3".data, "fix!: gamma".data⟩]

/-- C3 counterexample: with breaking commits `fix!`, `feat!`, `fix!` (in
that input order) the materialized breaking-changes list walks the
buckets and yields hashes `c1, c3, c2` — not the input order
`c1, c2, c3` the claim requires. -/
theorem c3_counterexample :
    (breakingList (group_commits c3ex)).map (fun c => c.hash) =
      ["c1".data, "c3".data, "c2".data] ∧
    ((c3ex.map classifyRaw).filter (fun c => c.breaking)).map (fun c => c.hash) =
      ["c1".data, "c2".data, "c3".data] ∧
    breakingList (group_commits c3ex) ≠
      (c3ex.map classifyRaw).filter (fun c => c.breaking) :=
  ⟨by decide, by decide, by decide⟩

/-- C3 (amended): each type bucket holds exactly the classified commits
of that bucket key in input order (so grouping is stable within a type);
the separately materialized breaking-changes list holds the breaking
commits grouped bucket by bucket, buckets in first-occurrence order,
preserving input order only within each bucket. -/
theorem c3_amended (commits : List RawCommit) :
    (∀ ty l, lookupB (group_commits commits) ty = some l →
      l = (commits.map classifyRaw).filter (fun c => cKey c == ty)) ∧
    breakingList (group_commits commits) =
      ((firstOccur ((commits.map classifyRaw).map cKey)).map
        (fun ty => (commits.map classifyRaw).filter
          (fun c => c.breaking && (cKey c == ty)))).flatten := by
  constructor
  · intro ty l hl
    rw [group_commits_eq] at hl
    unfold groupedOf at hl
    by_cases hmem : ty ∈ firstOccur ((commits.map classifyRaw).map cKey)
    · rw [lookupB_map_mem _ _ _ hmem] at hl
      injection hl with h1
      exact h1.symm
    · rw [lookupB_map_not_mem _ _ _ hmem] at hl
      exact Option.noConfusion hl
  · rw [group_commits_eq]
    exact breakingList_groupedOf _

theorem c3_amended_witness :
    (c3ex.map classifyRaw).filter (fun c => cKey c == "fix".data) =
      [classifyRaw ⟨"c1".data, "fix!: alpha".data⟩,
       classifyRaw ⟨"c3".data, "fix!: gamma".data⟩] :=
  ((c3_amended c3ex).1 "fix".data
    [classifyRaw ⟨"c1".data, "fix!: alpha".data⟩,
     classifyRaw ⟨"c3".data, "fix!: gamma".data⟩] (by decide)).symm

/-- A rendered line opens a section iff it starts with `"### "`. -/
def isSectionHeader (l : Str) : Bool := "### ".data.isPrefixOf l

theorem entryLine_not_section (c : CCommit) :
    isSectionHeader (entryLine c) = false := rfl

theorem section_header_true (x y : Str) :
    isSectionHeader ((['#', '#', '#', ' '] ++ x) ++ y) = true := by
  simp [isSectionHeader, List.isPrefixOf, List.append_assoc]

theorem filter_entryLines (l : List CCommit) :
    (l.map entryLine).filter isSectionHeader = [] := by
  rw [List.filter_map]
  have h : l.filter (isSectionHeader ∘ entryLine) = [] := by
    rw [List.filter_eq_nil_iff]
    intro a _ hc
    have : isSectionHeader (entryLine a) = false := entryLine_not_section a
    simp only [Function.comp] at hc
    rw [this] at hc
    exact Bool.noConfusion hc
  rw [h]
  rfl

theorem filter_otherLines (l : List CCommit) :
    (l.map (fun c => "- ".data ++ c.subject ++ " (".data ++ c.hash ++ [')'])).filter
      isSectionHeader = [] := by
  rw [List.filter_map]
  have h : l.filter (isSectionHeader ∘
      (fun c => "- ".data ++ c.subject ++ " (".data ++ c.hash ++ [')'])) = [] := by
    rw [List.filter_eq_nil_iff]
    intro a _ hc
    exact Bool.noConfusion hc
  rw [h]
  rfl

theorem headerLine_not_section (version date : Str) (u : Option Str) :
    isSectionHeader (headerLine version date u) = false := by
  cases u <;> rfl

theorem filter_breakingSection (g : List (Str × List CCommit)) :
    (breakingSection g).filter isSectionHeader =
      if breakingList g ≠ [] then ["### ⚠️ BREAKING CHANGES".data] else [] := by
  unfold breakingSection
  split
  · rename_i hne
    rw [if_pos hne]
    simp only [List.filter_cons, List.filter_append]
    rw [filter_entryLines]
    rfl
  · rename_i hne
    rw [if_neg hne]
    rfl

theorem flatten_map_if {α β : Type} (L : List α) (P : α → Bool) (f : α → β) :
    (L.map (fun e => if P e then [f e] else [])).flatten = (L.filter P).map f := by
  induction L with
  | nil => rfl
  | cons a t ih =>
    simp only [List.map_cons, List.flatten_cons, List.filter_cons]
    by_cases h : P a
    · simp only [h, if_true, if_pos]
      rw [List.map_cons, ih]
      rfl
    · simp only [h]
      rw [if_neg (by simp [h]), ih]
      simp [h]

theorem nil_not_section : isSectionHeader [] = false := rfl

theorem filter_typeSection (commits : List RawCommit) (e : Str × Str × Str) :
    (typeSection (group_commits commits) e).filter isSectionHeader =
      if (commits.map classifyRaw).any (fun c => cKey c == e.1) then
        ["### ".data ++ e.2.2 ++ ' ' :: e.2.1] else [] := by
  rw [group_commits_eq]
  unfold typeSection
  by_cases hmem : e.1 ∈ firstOccur ((commits.map classifyRaw).map cKey)
  · have hlook : lookupB (groupedOf (commits.map classifyRaw)) e.1 =
        some ((commits.map classifyRaw).filter (fun c => cKey c == e.1)) := by
      unfold groupedOf
      exact lookupB_map_mem _ _ _ hmem
    rw [hlook]
    have hex : ∃ c ∈ commits.map classifyRaw, cKey c = e.1 := by
      have := (mem_firstOccur _ _).mp hmem
      simpa using this
    obtain ⟨c0, hc0, hk0⟩ := hex
    have hne : (commits.map classifyRaw).filter (fun c => cKey c == e.1) ≠ [] := by
      intro hnil
      rw [List.filter_eq_nil_iff] at hnil
      exact hnil c0 hc0 (by simp [hk0])
    have hany : (commits.map classifyRaw).any (fun c => cKey c == e.1) = true := by
      rw [List.any_eq_true]
      exact ⟨c0, hc0, by simp [hk0]⟩
    dsimp only
    rw [if_pos hne, if_pos hany]
    rw [List.filter_append,
      @List.filter_cons_of_pos _ isSectionHeader _ _ (section_header_true e.2.2 (' ' :: e.2.1)),
      @List.filter_cons_of_neg _ isSectionHeader _ _ (by simp [nil_not_section]),
      filter_entryLines]
    rfl
  · have hlook : lookupB (groupedOf (commits.map classifyRaw)) e.1 = none := by
      unfold groupedOf
      exact lookupB_map_not_mem _ _ _ hmem
    rw [hlook]
    have hany : ¬ ((commits.map classifyRaw).any (fun c => cKey c == e.1) = true) := by
      rw [List.any_eq_true]
      rintro ⟨c0, hc0, hk0⟩
      apply hmem
      rw [mem_firstOccur]
      have : cKey c0 = e.1 := by simpa using hk0
      exact this ▸ List.mem_map_of_mem cKey hc0
    rw [if_neg hany]
    rfl

theorem filter_otherSection (commits : List RawCommit) :
    (otherSection (group_commits commits)).filter isSectionHeader =
      if (commits.map classifyRaw).any (fun c => cKey c == "other".data) then
        ["### Other Changes".data] else [] := by
  rw [group_commits_eq]
  unfold otherSection
  by_cases hmem : "other".data ∈ firstOccur ((commits.map classifyRaw).map cKey)
  · have hlook : lookupB (groupedOf (commits.map classifyRaw)) "other".data =
        some ((commits.map classifyRaw).filter (fun c => cKey c == "other".data)) := by
      unfold groupedOf
      exact lookupB_map_mem _ _ _ hmem
    rw [hlook]
    have hex : ∃ c ∈ commits.map classifyRaw, cKey c = "other".data := by
      have := (mem_firstOccur _ _).mp hmem
      simpa using this
    obtain ⟨c0, hc0, hk0⟩ := hex
    have hne : (commits.map classifyRaw).filter
        (fun c => cKey c == "other".data) ≠ [] := by
      intro hnil
      rw [List.filter_eq_nil_iff] at hnil
      exact hnil c0 hc0 (by simp [hk0])
    have hany : (commits.map classifyRaw).any
        (fun c => cKey c == "other".data) = true := by
      rw [List.any_eq_true]
      exact ⟨c0, hc0, by simp [hk0]⟩
    dsimp only
    rw [if_pos hne, if_pos hany]
    rw [List.filter_append,
      @List.filter_cons_of_pos _ isSectionHeader _ _ (show isSectionHeader
        ['#', '#', '#', ' ', 'O', 't', 'h', 'e', 'r', ' ',
         'C', 'h', 'a', 'n', 'g', 'e', 's'] = true from by decide),
      @List.filter_cons_of_neg _ isSectionHeader _ _ (by simp [nil_not_section]),
      filter_otherLines]
    rfl
  · have hlook : lookupB (groupedOf (commits.map classifyRaw)) "other".data = none := by
      unfold groupedOf
      exact lookupB_map_not_mem _ _ _ hmem
    rw [hlook]
    have hany : ¬ ((commits.map classifyRaw).any
        (fun c => cKey c == "other".data) = true) := by
      rw [List.any_eq_true]
      rintro ⟨c0, hc0, hk0⟩
      apply hmem
      rw [mem_firstOccur]
      have : cKey c0 = "other".data := by simpa using hk0
      exact this ▸ List.mem_map_of_mem cKey hc0
    rw [if_neg hany]
    rfl

theorem breakingList_ne_nil_iff (commits : List RawCommit) :
    (breakingList (group_commits commits) ≠ []) ↔
      (commits.map classifyRaw).any (fun c => c.breaking) = true := by
  rw [group_commits_eq, breakingList_groupedOf]
  constructor
  · intro h
    obtain ⟨x, hx⟩ := List.exists_mem_of_ne_nil _ h
    rw [List.mem_flatten] at hx
    obtain ⟨l, hl, hxl⟩ := hx
    rw [List.mem_map] at hl
    obtain ⟨ty, hty, rfl⟩ := hl
    rw [List.mem_filter] at hxl
    rw [List.any_eq_true]
    refine ⟨x, hxl.1, ?_⟩
    have h2 := hxl.2
    simp only [Bool.and_eq_true] at h2
    exact h2.1
  · intro h
    rw [List.any_eq_true] at h
    obtain ⟨c, hc, hb⟩ := h
    intro hnil
    have hty : cKey c ∈ firstOccur ((commits.map classifyRaw).map cKey) := by
      rw [mem_firstOccur]
      exact List.mem_map_of_mem cKey hc
    have hcm : c ∈ (commits.map classifyRaw).filter
        (fun x => x.breaking && (cKey x == cKey c)) := by
      rw [List.mem_filter]
      exact ⟨hc, by simp [hb]⟩
    have hmemf : c ∈ ((firstOccur ((commits.map classifyRaw).map cKey)).map
        (fun ty => (commits.map classifyRaw).filter
          (fun x => x.breaking && (cKey x == ty)))).flatten := by
      rw [List.mem_flatten]
      exact ⟨_, List.mem_map_of_mem _ hty, hcm⟩
    rw [hnil] at hmemf
    simp at hmemf

/-- The section-header lines the claim predicts: breaking first (only if
some commit is breaking), then the known types in `COMMIT_TYPES` order,
each only if its bucket is inhabited, then `Other Changes` only if some
commit falls outside the known types. -/
def canonicalHeaders (commits : List RawCommit) : List Str :=
  (if (commits.map classifyRaw).any (fun c => c.breaking) then
      ["### ⚠️ BREAKING CHANGES".data] else []) ++
    ((COMMIT_TYPES.filter (fun e => (commits.map classifyRaw).any
        (fun c => cKey c == e.1))).map
      (fun e => "### ".data ++ e.2.2 ++ ' ' :: e.2.1)) ++
    (if (commits.map classifyRaw).any (fun c => cKey c == "other".data) then
      ["### Other Changes".data] else [])

/-- C8: the markdown rendering emits its section headings in a fixed
order independent of the input order — breaking changes first (only when
non-empty), then one section per known type in the `COMMIT_TYPES` order
(each only when its bucket is non-empty), then `Other Changes` (only when
commits with unknown types exist). -/
theorem c8_section_order (version date : Str) (compareUrl : Option Str)
    (commits : List RawCommit) :
    (format_markdown version date (group_commits commits) compareUrl).filter
        isSectionHeader = canonicalHeaders commits := by
  unfold format_markdown canonicalHeaders
  simp only [List.filter_append]
  rw [@List.filter_cons_of_neg _ isSectionHeader _ _ (by simp [headerLine_not_section]),
    @List.filter_cons_of_neg _ isSectionHeader _ _ (by simp [nil_not_section]),
    filter_breakingSection, List.filter_flatten, List.map_map]
  have hmap : (COMMIT_TYPES.map (List.filter isSectionHeader ∘ typeSection (group_commits commits))) =
      COMMIT_TYPES.map (fun e =>
        if (commits.map classifyRaw).any (fun c => cKey c == e.1) then
          ["### ".data ++ e.2.2 ++ ' ' :: e.2.1] else []) := by
    refine List.map_congr_left ?_
    intro e he
    exact filter_typeSection commits e
  rw [hmap, flatten_map_if, filter_otherSection,
    if_congr (breakingList_ne_nil_iff commits) rfl rfl]
